import Mathlib

/-!
# Verification of `fix_fqcn.py`

This file is a shallow embedding of the Ansible-FQCN rewriting tool
`testing-validation/fix_fqcn.py` together with proofs about it.

The program reads a file into a string `content` and then, for each module
name `m` in a fixed list, executes

    content = re.sub(r'^(\s+)(m):(\s*)', r'\1ansible.builtin.m:\3',
                     content, flags=re.MULTILINE)

and finally writes `content` back to the same path.

The embedding models the document as `List Char`.  The Python `re.sub` call
is compiled to the function `scan` below, which reproduces the documented
semantics of `re.sub` with `re.MULTILINE`:

* the whole document is scanned left to right; non-overlapping matches are
  replaced, and scanning resumes immediately after each match;
* `^` matches at the start of the string and immediately after every
  `'\n'` (and nowhere else); the flag argument of `scan` records whether
  the current position is such a position;
* `\s` matches exactly the whitespace characters that Python's `re` module
  accepts for `str` patterns (see `isWs`); `\s+`/`\s*` are greedy.  Since
  every module name starts with a non-whitespace character, a shorter
  (backtracked) choice for the greedy `(\s+)` group would place a
  whitespace character where the module name must start, so the pattern
  matches at a position iff the *maximal* whitespace run from that position
  is non-empty and is immediately followed by the literal `m:`.  The
  trailing `(\s*)` group is final in the pattern, hence always maximal.
  Both groups may run across `'\n'` characters.
-/

/-- Those characters matched by `\s` in a Python 3 `str` regular expression:
`\t \n \v \f \r`, the separators `\x1c`–`\x1f`, space, `\x85`, `\xa0`,
`\u1680`, `\u2000`–`\u200a`, `\u2028`, `\u2029`, `\u202f`, `\u205f`,
`\u3000`. -/
def isWs (c : Char) : Bool :=
  decide (9 ≤ c.toNat ∧ c.toNat ≤ 13) || decide (28 ≤ c.toNat ∧ c.toNat ≤ 31) ||
  decide (c.toNat = 32) || decide (c.toNat = 133) || decide (c.toNat = 160) ||
  decide (c.toNat = 5760) || decide (8192 ≤ c.toNat ∧ c.toNat ≤ 8202) ||
  decide (c.toNat = 8232) || decide (c.toNat = 8233) || decide (c.toNat = 8239) ||
  decide (c.toNat = 8287) || decide (c.toNat = 12288)

/-- A list of characters that is all whitespace (the body of a `\s*`). -/
def wsList (l : List Char) : Bool := l.all isWs

/-- The inserted text `ansible.builtin.` (16 characters). -/
def pfxChars : List Char := "ansible.builtin.".data

/-- The fixed list of builtin module names, in the order the program
iterates over them (`builtin_modules` in `fix_fqcn.py`). -/
def builtin_modules : List (List Char) :=
  ["assert", "command", "copy", "debug", "fail", "file", "get_url",
   "group", "include_tasks", "include_vars", "lineinfile", "meta",
   "pause", "raw", "script", "service", "set_fact", "setup",
   "shell", "slurp", "stat", "template", "unarchive", "uri",
   "user", "wait_for", "yum", "apt", "package", "systemd",
   "blockinfile", "replace", "import_tasks", "import_playbook"].map String.data

/-- `l` starts with the literal text `m` followed by a colon
(the `(m):` part of the pattern). -/
def keyHead (m l : List Char) : Bool := decide (l.take (m.length + 1) = m ++ [':'])

/-- `dropWhile` never lengthens a list. -/
theorem dwLen (p : Char → Bool) : ∀ l : List Char, (l.dropWhile p).length ≤ l.length
  | [] => le_refl _
  | c :: cs => by
    rw [List.dropWhile_cons]
    split
    · exact le_trans (dwLen p cs) (by simp)
    · simp

/-- One full-document pass of
`re.sub(r'^(\s+)(m):(\s*)', r'\1ansible.builtin.m:\3', ·, flags=re.MULTILINE)`.

The Boolean argument is true iff the current position is a `^` position of
the original string (string start or just after a `'\n'`); after a match it
is recomputed from the last character consumed by the match, exactly as
`re.sub` resumes scanning in the original string after the matched range. -/
def scan (m : List Char) : Bool → List Char → List Char
  | _, [] => []
  | atLS, c :: cs =>
    if h : atLS ∧ (c :: cs).takeWhile isWs ≠ [] ∧
        keyHead m ((c :: cs).dropWhile isWs) then
      let s2 := ((c :: cs).dropWhile isWs).drop (m.length + 1)
      ((c :: cs).takeWhile isWs) ++ pfxChars ++ m ++ ':' ::
        (s2.takeWhile isWs ++
          scan m (decide ((s2.takeWhile isWs).getLast? = some '\n')) (s2.dropWhile isWs))
    else
      c :: scan m (decide (c = '\n')) cs
termination_by _ s => s.length
decreasing_by
  · simp only [List.length_cons]
    have h1 : ((c :: cs).takeWhile isWs).length + ((c :: cs).dropWhile isWs).length
        = cs.length + 1 := by
      rw [← List.length_append, List.takeWhile_append_dropWhile, List.length_cons]
    have h2 : (((c :: cs).dropWhile isWs).drop (m.length + 1)).length
        ≤ ((c :: cs).dropWhile isWs).length := by
      rw [List.length_drop]; omega
    have h3 : ((((c :: cs).dropWhile isWs).drop (m.length + 1)).dropWhile isWs).length
        ≤ (((c :: cs).dropWhile isWs).drop (m.length + 1)).length :=
      dwLen _ _
    have h4 : 1 ≤ ((c :: cs).takeWhile isWs).length := by
      rcases h with ⟨-, hne, -⟩
      cases hw : (c :: cs).takeWhile isWs with
      | nil => exact absurd hw hne
      | cons a l => simp
    omega
  · simp

/-- The whole transform performed by `fix_fqcn_in_file` on the in-memory
document: the ordered sequence of per-module substitution passes. -/
def fix_fqcn_content (content : List Char) : List Char :=
  builtin_modules.foldl (fun acc mdl => scan mdl true acc) content

/-! ## Lines

Claims in the specification are phrased per line.  `splitLines` cuts a
document at every `'\n'` (a document with `k` newline characters has
`k + 1` lines, the trailing one possibly empty), and `joinLines` is its
inverse. -/

def splitLines : List Char → List (List Char)
  | [] => [[]]
  | c :: cs =>
    if c = '\n' then [] :: splitLines cs
    else
      match splitLines cs with
      | [] => [[c]]
      | l :: ls => (c :: l) :: ls

/-- `'\n'` followed by the joined lines: the glue used by `joinLines`. -/
def nlJoin : List (List Char) → List Char
  | [] => []
  | l :: ls => '\n' :: (l ++ nlJoin ls)

def joinLines : List (List Char) → List Char
  | [] => []
  | l :: ls => l ++ nlJoin ls

theorem splitLines_ne_nil (s : List Char) : splitLines s ≠ [] := by
  cases s with
  | nil => simp [splitLines]
  | cons c cs =>
    rw [splitLines]
    split
    · simp
    · split <;> simp

theorem joinLines_splitLines (s : List Char) : joinLines (splitLines s) = s := by
  induction s with
  | nil => rfl
  | cons c cs ih =>
    rw [splitLines]
    split
    · rename_i hc
      rcases h : splitLines cs with _ | ⟨l, ls⟩
      · exact absurd h (splitLines_ne_nil cs)
      · rw [h] at ih
        simp only [joinLines, nlJoin, List.nil_append]
        rw [hc]
        simp only [joinLines] at ih
        rw [ih]
    · rcases h : splitLines cs with _ | ⟨l, ls⟩
      · exact absurd h (splitLines_ne_nil cs)
      · rw [h] at ih
        simp only [joinLines] at ih ⊢
        simp only [List.cons_append, ih]

theorem splitLines_noNl (s : List Char) :
    ∀ l ∈ splitLines s, ('\n' : Char) ∉ l := by
  induction s with
  | nil => simp [splitLines]
  | cons c cs ih =>
    rw [splitLines]
    split
    · intro l hl
      rcases List.mem_cons.mp hl with hl | hl
      · simp [hl]
      · exact ih l hl
    · rename_i hc
      rcases h : splitLines cs with _ | ⟨l0, ls0⟩
      · exact absurd h (splitLines_ne_nil cs)
      · rw [h] at ih
        intro l hl
        rcases List.mem_cons.mp hl with hl | hl
        · subst hl
          intro hmem
          rcases List.mem_cons.mp hmem with hmem | hmem
          · exact hc hmem.symm
          · exact ih l0 (by simp) hmem
        · exact ih l (by simp [hl])

theorem splitLines_noNl_line (l : List Char) (h : ('\n' : Char) ∉ l) :
    splitLines l = [l] := by
  induction l with
  | nil => rfl
  | cons c cs ih =>
    rw [splitLines]
    have hc : ¬ c = '\n' := fun hh => h (by simp [hh])
    rw [if_neg hc, ih (fun hm => h (by simp [hm]))]

theorem splitLines_append_nl (l K : List Char) (h : ('\n' : Char) ∉ l) :
    splitLines (l ++ '\n' :: K) = l :: splitLines K := by
  induction l with
  | nil => simp [splitLines]
  | cons c cs ih =>
    have hc : ¬ c = '\n' := fun hh => h (by simp [hh])
    rw [List.cons_append, splitLines, if_neg hc, ih (fun hm => h (by simp [hm]))]

theorem splitLines_joinLines (ls : List (List Char)) (hne : ls ≠ [])
    (hwf : ∀ l ∈ ls, ('\n' : Char) ∉ l) : splitLines (joinLines ls) = ls := by
  induction ls with
  | nil => exact absurd rfl hne
  | cons l ls ih =>
    cases ls with
    | nil =>
      simp only [joinLines, nlJoin, List.append_nil]
      exact splitLines_noNl_line l (hwf l (by simp))
    | cons l2 ls2 =>
      have : joinLines (l :: l2 :: ls2) = l ++ '\n' :: joinLines (l2 :: ls2) := by
        simp [joinLines, nlJoin]
      rw [this, splitLines_append_nl l _ (hwf l (by simp)),
        ih (by simp) (fun x hx => hwf x (by simp [hx]))]

/-! ## Whitespace helpers -/

theorem twAppAll {α : Type} {p : α → Bool} {a : List α} (h : a.all p = true) (b : List α) :
    (a ++ b).takeWhile p = a ++ b.takeWhile p := by
  induction a with
  | nil => simp
  | cons c cs ih =>
    simp only [List.all_cons, Bool.and_eq_true] at h
    simp [List.takeWhile_cons, h.1, ih h.2]

theorem dwAppAll {α : Type} {p : α → Bool} {a : List α} (h : a.all p = true) (b : List α) :
    (a ++ b).dropWhile p = b.dropWhile p := by
  induction a with
  | nil => simp
  | cons c cs ih =>
    simp only [List.all_cons, Bool.and_eq_true] at h
    simp [List.dropWhile_cons, h.1, ih h.2]

theorem twAll {α : Type} {p : α → Bool} {a : List α} (h : a.all p = true) :
    a.takeWhile p = a := by
  have := twAppAll h []
  simpa using this

theorem dwAll {α : Type} {p : α → Bool} {a : List α} (h : a.all p = true) :
    a.dropWhile p = [] := by
  have := dwAppAll h ([] : List α)
  simpa using this

theorem twAppStop {α : Type} {p : α → Bool} {a : List α} (h : a.all p = false) (b : List α) :
    (a ++ b).takeWhile p = a.takeWhile p := by
  induction a with
  | nil => simp at h
  | cons c cs ih =>
    simp only [List.all_cons] at h
    rcases Bool.and_eq_false_iff.mp h with h1 | h1
    · simp [List.takeWhile_cons, h1]
    · cases hc : p c with
      | false => simp [List.takeWhile_cons, hc]
      | true => simp [List.takeWhile_cons, hc, ih h1]

theorem dwAppStop {α : Type} {p : α → Bool} {a : List α} (h : a.all p = false) (b : List α) :
    (a ++ b).dropWhile p = a.dropWhile p ++ b := by
  induction a with
  | nil => simp at h
  | cons c cs ih =>
    simp only [List.all_cons] at h
    rcases Bool.and_eq_false_iff.mp h with h1 | h1
    · simp [List.dropWhile_cons, h1]
    · cases hc : p c with
      | false => simp [List.dropWhile_cons, hc]
      | true => simp [List.dropWhile_cons, hc, ih h1]

theorem twMem {α : Type} {p : α → Bool} : ∀ {l : List α} {c : α}, c ∈ l.takeWhile p → p c = true := by
  intro l
  induction l with
  | nil => intro c h; simp [List.takeWhile] at h
  | cons a as ih =>
    intro c h
    rw [List.takeWhile_cons] at h
    by_cases ha : p a = true
    · rw [if_pos ha] at h
      rcases List.mem_cons.mp h with h | h
      · rwa [h]
      · exact ih h
    · rw [if_neg ha] at h
      exact absurd h (List.not_mem_nil c)

theorem twWs (l : List Char) : (l.takeWhile isWs).all isWs = true :=
  List.all_eq_true.mpr (fun c hc => twMem hc)

theorem dwHeadFalse {α : Type} {p : α → Bool} :
    ∀ {l : List α} {c : α} {t : List α}, l.dropWhile p = c :: t → p c = false := by
  intro l
  induction l with
  | nil => intro c t h; simp [List.dropWhile] at h
  | cons a as ih =>
    intro c t h
    rw [List.dropWhile_cons] at h
    by_cases ha : p a = true
    · rw [if_pos ha] at h
      exact ih h
    · rw [if_neg ha] at h
      cases h
      exact Bool.of_not_eq_true ha

theorem nlWs : isWs '\n' = true := by decide

theorem getLastNotNl {X : List Char} (h : ('\n' : Char) ∉ X) :
    (decide (X.getLast? = some '\n')) = false := by
  rcases hX : X.getLast? with _ | c
  · simp
  · have hmem : c ∈ X.getLast? := by simp [hX]
    rcases List.mem_getLast?_eq_getLast hmem with ⟨hne, hc⟩
    have hcX : c ∈ X := hc ▸ List.getLast_mem hne
    have : ¬ c = '\n' := fun hh => h (hh ▸ hcX)
    simp [hX, this]

/-! ## The line-level pass machine

`passLines` recasts one `scan` pass as a transformation of the list of
lines; `scanEqPassLines` below proves it equal to `scan`.  The three modes
track where inside the original string the scan position sits when a line
boundary is crossed:

* `fresh`: at the start of the line, no pending match context;
* `wcross`: inside the `(\s+)` group of a match that started on an earlier
  all-whitespace line and will reach the first non-blank line;
* `spill`: inside the trailing `(\s*)` group of a completed match, which
  greedily consumes subsequent blank lines and the indentation of the next
  non-blank line, so that scanning resumes only after that indentation. -/

/-- Scanner mode at a line boundary; see the section comment. -/
inductive PMode where
  | fresh : PMode
  | wcross : PMode
  | spill : PMode

/-- The line begins, after its (possibly empty) leading whitespace, with the
module name followed by a colon. -/
def keyAtWs (m l : List Char) : Bool := keyHead m (l.dropWhile isWs)

/-- The first non-blank of the following lines begins (after leading
whitespace) with `m:` — a match started on the current all-whitespace line
will reach it through the `(\s+)` group. -/
def crossKey (m : List Char) (ls : List (List Char)) : Bool :=
  match ls.dropWhile wsList with
  | [] => false
  | lj :: _ => keyAtWs m lj

/-- Insert `ansible.builtin.` right after the leading whitespace:
`\1ansible.builtin.m:\3` restricted to the matched line. -/
def rewriteLine (l : List Char) : List Char :=
  l.takeWhile isWs ++ pfxChars ++ l.dropWhile isWs

/-- Mode after a match whose trailing text (after the colon) is `tail`: if
`tail` is all whitespace the `(\s*)` group spills across the newline
(`spill`), otherwise the pass continues fresh at the next line. -/
def modeOfTail (tail : List Char) : PMode :=
  if wsList tail then .spill else .fresh

/-- `modeOfTail` of the matched line's text after `m:`. -/
def tailMode (m l : List Char) : PMode :=
  modeOfTail ((l.dropWhile isWs).drop (m.length + 1))

def passLines (m : List Char) : PMode → List (List Char) → List (List Char)
  | _, [] => []
  | .spill, l :: ls =>
    if wsList l then l :: passLines m .spill ls else l :: passLines m .fresh ls
  | .wcross, l :: ls =>
    if wsList l then l :: passLines m .wcross ls
    else rewriteLine l :: passLines m (tailMode m l) ls
  | .fresh, l :: ls =>
    if keyAtWs m l = true ∧ l.takeWhile isWs ≠ [] then
      rewriteLine l :: passLines m (tailMode m l) ls
    else if wsList l = true ∧ crossKey m ls = true then
      l :: passLines m .wcross ls
    else l :: passLines m .fresh ls

/-! ## Unfolding and copy lemmas for `scan` -/

theorem scan_nil (m : List Char) (b : Bool) : scan m b [] = [] := by
  rw [scan]

theorem scan_cons_neg (m : List Char) (atLS : Bool) (c : Char) (cs : List Char)
    (h : ¬ (atLS = true ∧ (c :: cs).takeWhile isWs ≠ [] ∧
      keyHead m ((c :: cs).dropWhile isWs) = true)) :
    scan m atLS (c :: cs) = c :: scan m (decide (c = '\n')) cs := by
  rw [scan, dif_neg]
  exact fun hh => h ⟨hh.1, hh.2.1, hh.2.2⟩

theorem scan_cons_pos (m : List Char) (atLS : Bool) (c : Char) (cs : List Char)
    (h : atLS = true ∧ (c :: cs).takeWhile isWs ≠ [] ∧
      keyHead m ((c :: cs).dropWhile isWs) = true) :
    scan m atLS (c :: cs) =
      ((c :: cs).takeWhile isWs) ++ pfxChars ++ m ++ ':' ::
        ((((c :: cs).dropWhile isWs).drop (m.length + 1)).takeWhile isWs ++
          scan m
            (decide (((((c :: cs).dropWhile isWs).drop (m.length + 1)).takeWhile isWs).getLast?
              = some '\n'))
            ((((c :: cs).dropWhile isWs).drop (m.length + 1)).dropWhile isWs)) := by
  rw [scan, dif_pos]
  exact ⟨h.1, h.2.1, h.2.2⟩

/-! ## More list facts -/

theorem dwMem {α : Type} {p : α → Bool} :
    ∀ {l : List α} {a : α}, a ∈ l.dropWhile p → a ∈ l := by
  intro l
  induction l with
  | nil => intro a h; simpa using h
  | cons c cs ih =>
    intro a h
    rw [List.dropWhile_cons] at h
    by_cases hc : p c = true
    · rw [if_pos hc] at h
      exact List.mem_cons_of_mem c (ih h)
    · rw [if_neg hc] at h
      exact h

theorem twMemOf {α : Type} {p : α → Bool} :
    ∀ {l : List α} {a : α}, a ∈ l.takeWhile p → a ∈ l := by
  intro l
  induction l with
  | nil => intro a h; simpa using h
  | cons c cs ih =>
    intro a h
    rw [List.takeWhile_cons] at h
    by_cases hc : p c = true
    · rw [if_pos hc] at h
      rcases List.mem_cons.mp h with h | h
      · simp [h]
      · exact List.mem_cons_of_mem c (ih h)
    · rw [if_neg hc] at h
      exact absurd h (List.not_mem_nil a)

theorem dwNeNil {α : Type} {p : α → Bool} {l : List α} (h : l.all p = false) :
    l.dropWhile p ≠ [] := by
  intro hd
  have hl : l.takeWhile p = l := by
    have := List.takeWhile_append_dropWhile p l
    rw [hd, List.append_nil] at this
    exact this
  have : l.all p = true := List.all_eq_true.mpr (fun c hc => twMem (hl ▸ hc))
  rw [this] at h
  exact Bool.true_eq_false.mp h

theorem nlJoin_append (as bs : List (List Char)) :
    nlJoin (as ++ bs) = nlJoin as ++ nlJoin bs := by
  induction as with
  | nil => simp [nlJoin]
  | cons l ls ih => simp [nlJoin, ih]

theorem nlJoin_ne_nil_eq {X : List (List Char)} (h : X ≠ []) :
    nlJoin X = '\n' :: joinLines X := by
  cases X with
  | nil => exact absurd rfl h
  | cons l ls => rfl

theorem joinLines_cons_eq (l : List Char) (ls : List (List Char)) :
    joinLines (l :: ls) = l ++ nlJoin ls := rfl

theorem passLen (m : List Char) : ∀ (mo : PMode) (ls : List (List Char)),
    (passLines m mo ls).length = ls.length := by
  intro mo ls
  induction ls generalizing mo with
  | nil => cases mo <;> rfl
  | cons l ls ih =>
    cases mo with
    | spill =>
      rw [passLines]
      split <;> simp [ih]
    | wcross =>
      rw [passLines]
      split <;> simp [ih]
    | fresh =>
      rw [passLines]
      split
      · simp [ih]
      · split <;> simp [ih]

theorem passNeNil (m : List Char) (mo : PMode) {ls : List (List Char)} (h : ls ≠ []) :
    passLines m mo ls ≠ [] := by
  intro hh
  apply h
  have := passLen m mo ls
  rw [hh] at this
  exact List.length_eq_zero.mp this.symm

theorem pfxNoNl : ('\n' : Char) ∉ pfxChars := by decide

theorem rwNoNl {l : List Char} (h : ('\n' : Char) ∉ l) :
    ('\n' : Char) ∉ rewriteLine l := by
  intro hm
  rcases List.mem_append.mp hm with hm | hm
  · rcases List.mem_append.mp hm with hm | hm
    · exact h (twMemOf hm)
    · exact pfxNoNl hm
  · exact h (dwMem hm)

theorem passWF (m : List Char) : ∀ (mo : PMode) (ls : List (List Char)),
    (∀ l ∈ ls, ('\n' : Char) ∉ l) → ∀ l ∈ passLines m mo ls, ('\n' : Char) ∉ l := by
  intro mo ls
  induction ls generalizing mo with
  | nil => intro _ l hl; cases mo <;> simp [passLines] at hl
  | cons l0 ls ih =>
    intro hwf l hl
    have h0 : ('\n' : Char) ∉ l0 := hwf l0 (by simp)
    have hrest : ∀ x ∈ ls, ('\n' : Char) ∉ x := fun x hx => hwf x (by simp [hx])
    cases mo with
    | spill =>
      rw [passLines] at hl
      split at hl <;> rcases List.mem_cons.mp hl with h | h
      · exact h ▸ h0
      · exact ih _ hrest l h
      · exact h ▸ h0
      · exact ih _ hrest l h
    | wcross =>
      rw [passLines] at hl
      split at hl <;> rcases List.mem_cons.mp hl with h | h
      · exact h ▸ h0
      · exact ih _ hrest l h
      · exact h ▸ rwNoNl h0
      · exact ih _ hrest l h
    | fresh =>
      rw [passLines] at hl
      split at hl
      · rcases List.mem_cons.mp hl with h | h
        · exact h ▸ rwNoNl h0
        · exact ih _ hrest l h
      · split at hl <;> rcases List.mem_cons.mp hl with h | h
        · exact h ▸ h0
        · exact ih _ hrest l h
        · exact h ▸ h0
        · exact ih _ hrest l h

/-- All-whitespace lines glue to an all-whitespace string. -/
theorem nlJoinWs {ls : List (List Char)} (h : ∀ l ∈ ls, wsList l = true) :
    (nlJoin ls).all isWs = true := by
  induction ls with
  | nil => rfl
  | cons l ls ih =>
    rw [nlJoin]
    simp only [List.all_cons, List.all_append, Bool.and_eq_true]
    exact ⟨nlWs, h l (by simp), ih (fun x hx => h x (by simp [hx]))⟩

theorem keyHead_nil (m : List Char) : keyHead m [] = false := by
  unfold keyHead
  simp only [List.take_nil]
  rw [decide_eq_false]
  intro h
  have := congrArg List.length h
  simp at this

/-- An all-whitespace document is copied verbatim by a pass: the pattern
needs the literal `m:` after the whitespace run but only whitespace is
available. -/
theorem scanWsCopy (m : List Char) {s : List Char} (h : s.all isWs = true) :
    ∀ b, scan m b s = s := by
  induction s with
  | nil => intro b; rw [scan_nil]
  | cons c cs ih =>
    intro b
    simp only [List.all_cons, Bool.and_eq_true] at h
    rw [scan_cons_neg]
    · rw [ih h.2]
    · rintro ⟨-, -, hk⟩
      rw [dwAll (by simp [h.1, h.2])] at hk
      rw [keyHead_nil] at hk
      exact Bool.false_ne_true hk

/-- Copying in non-`^` mode: up to and including the next newline nothing
can match (the pattern is anchored), so characters are emitted unchanged. -/
theorem scanCopyMid (m : List Char) {xs : List Char} (h : ('\n' : Char) ∉ xs) (K : List Char) :
    scan m false (xs ++ '\n' :: K) = xs ++ '\n' :: scan m true K := by
  induction xs with
  | nil =>
    rw [List.nil_append, scan_cons_neg]
    · simp
    · rintro ⟨hfalse, -, -⟩
      exact Bool.false_ne_true hfalse
  | cons c cs ih =>
    have hc : ¬ c = '\n' := fun hh => h (by simp [hh])
    rw [List.cons_append, scan_cons_neg]
    · rw [decide_eq_false hc, ih (fun hm => h (by simp [hm])), List.cons_append]
    · rintro ⟨hfalse, -, -⟩
      exact Bool.false_ne_true hfalse

theorem scanCopyEnd (m : List Char) {xs : List Char} (h : ('\n' : Char) ∉ xs) :
    scan m false xs = xs := by
  induction xs with
  | nil => rw [scan_nil]
  | cons c cs ih =>
    have hc : ¬ c = '\n' := fun hh => h (by simp [hh])
    rw [scan_cons_neg]
    · rw [decide_eq_false hc, ih (fun hm => h (by simp [hm]))]
    · rintro ⟨hfalse, -, -⟩
      exact Bool.false_ne_true hfalse

/-- The literal `m:` (no whitespace characters) cannot straddle a newline:
checking it against `r` followed by a newline is checking it against `r`. -/
theorem keyHead_nlApp {m : List Char} (hm : m.all (fun c => !isWs c) = true)
    (r J : List Char) : keyHead m (r ++ '\n' :: J) = keyHead m r := by
  unfold keyHead
  by_cases hr : m.length + 1 ≤ r.length
  · rw [List.take_append_eq_append_take, Nat.sub_eq_zero_of_le hr, List.take_zero,
      List.append_nil]
  · have hlt : r.length < m.length + 1 := not_le.mp hr
    have h1 : r.take (m.length + 1) = r := List.take_of_length_le (le_of_lt hlt)
    rw [List.take_append_eq_append_take, h1]
    have h2 : decide (r = m ++ [':']) = false := by
      rw [decide_eq_false]
      intro h
      have := congrArg List.length h
      simp at this
      omega
    rw [h2]
    rw [decide_eq_false]
    intro h
    have hmem : ('\n' : Char) ∈ m ++ [':'] := by
      rw [← h]
      refine List.mem_append_right _ ?_
      have : 1 ≤ m.length + 1 - r.length := by omega
      cases hn : m.length + 1 - r.length with
      | zero => omega
      | succ k => simp [List.take_cons]
    rcases List.mem_append.mp hmem with hmem | hmem
    · have := List.all_eq_true.mp hm _ hmem
      rw [nlWs] at this
      exact Bool.false_ne_true ((Bool.not_true).symm ▸ this)
    · simp at hmem

/-- Copying a segment that starts with a non-whitespace character: whatever
the `^` flag, no match can start there (the `(\s+)` group needs at least one
whitespace character), so the segment up to the end of its line is copied
and the pass continues fresh on the following lines. -/
theorem scanCopyNB (m : List Char) (N : Nat)
    (ih : ∀ ls2 : List (List Char), ls2.length ≤ N → (∀ l ∈ ls2, ('\n' : Char) ∉ l) →
      scan m true (joinLines ls2) = joinLines (passLines m .fresh ls2))
    {c : Char} {xs : List Char} (hc : isWs c = false) (hx : ('\n' : Char) ∉ c :: xs)
    {rest2 : List (List Char)} (hr2 : rest2.length ≤ N)
    (hwf : ∀ l ∈ rest2, ('\n' : Char) ∉ l) (b : Bool) :
    scan m b ((c :: xs) ++ nlJoin rest2) = (c :: xs) ++ nlJoin (passLines m .fresh rest2) := by
  have hcnl : ¬ c = '\n' := by
    intro hh
    rw [hh, nlWs] at hc
    exact Bool.true_eq_false.mp hc
  have step : scan m b ((c :: xs) ++ nlJoin rest2)
      = c :: scan m false (xs ++ nlJoin rest2) := by
    rw [List.cons_append, scan_cons_neg, decide_eq_false hcnl]
    rintro ⟨-, hne, -⟩
    apply hne
    simp [List.takeWhile_cons, hc]
  rw [step]
  have hxs : ('\n' : Char) ∉ xs := fun hm => hx (by simp [hm])
  cases rest2 with
  | nil =>
    simp only [passLines, nlJoin, List.append_nil]
    rw [scanCopyEnd m hxs]
  | cons r1 rs =>
    have hj : nlJoin (r1 :: rs) = '\n' :: joinLines (r1 :: rs) := rfl
    rw [hj, scanCopyMid m hxs, ih (r1 :: rs) hr2 hwf,
      nlJoin_ne_nil_eq (passNeNil m .fresh (by simp))]
    simp

/-- Unfolding of `spill` mode: blank lines are still inside the matched
`(\s*)` group and are copied; the first non-blank line has its indentation
consumed by that group, so it cannot match and is copied whole; scanning
resumes fresh afterwards. -/
theorem passSpillUnfold (m : List Char) : ∀ ls : List (List Char),
    passLines m .spill ls = ls.takeWhile wsList ++
      (match ls.dropWhile wsList with
       | [] => []
       | lnb :: rest => lnb :: passLines m .fresh rest) := by
  intro ls
  induction ls with
  | nil => rfl
  | cons l ls ih =>
    rw [passLines]
    by_cases hl : wsList l = true
    · rw [if_pos hl, List.takeWhile_cons, List.dropWhile_cons, if_pos hl, if_pos hl, ih,
        List.cons_append]
    · rw [if_neg hl, List.takeWhile_cons, List.dropWhile_cons,
        if_neg hl, if_neg hl, List.nil_append]

/-- Unfolding of `wcross` mode: blank lines are inside the `(\s+)` group of
the pending match and are copied; the first non-blank line is the matched
line and is rewritten; afterwards the mode is decided by its tail. -/
theorem passWcrossUnfold (m : List Char) : ∀ ls : List (List Char),
    passLines m .wcross ls = ls.takeWhile wsList ++
      (match ls.dropWhile wsList with
       | [] => []
       | lnb :: rest => rewriteLine lnb :: passLines m (tailMode m lnb) rest) := by
  intro ls
  induction ls with
  | nil => rfl
  | cons l ls ih =>
    rw [passLines]
    by_cases hl : wsList l = true
    · rw [if_pos hl, List.takeWhile_cons, List.dropWhile_cons, if_pos hl, if_pos hl, ih,
        List.cons_append]
    · rw [if_neg hl, List.takeWhile_cons, List.dropWhile_cons,
        if_neg hl, if_neg hl, List.nil_append]

/-- A pass leaves a document of blank lines unchanged. -/
theorem passBlank (m : List Char) : ∀ {ls : List (List Char)},
    (∀ l ∈ ls, wsList l = true) → passLines m .fresh ls = ls := by
  intro ls
  induction ls with
  | nil => intro _; rfl
  | cons l ls ih =>
    intro h
    have hl : wsList l = true := h l (by simp)
    have hkey : ¬ (keyAtWs m l = true ∧ l.takeWhile isWs ≠ []) := by
      rintro ⟨hk, -⟩
      unfold keyAtWs at hk
      rw [dwAll hl, keyHead_nil] at hk
      exact Bool.false_ne_true hk
    have hcross : crossKey m ls = false := by
      unfold crossKey
      have : ls.dropWhile wsList = [] := dwAll (List.all_eq_true.mpr (fun x hx => h x (by simp [hx])))
      rw [this]
    have hc2 : ¬ (wsList l = true ∧ crossKey m ls = true) := by
      rintro ⟨-, hck⟩
      rw [hcross] at hck
      exact Bool.false_ne_true hck
    rw [passLines, if_neg hkey, if_neg hc2, ih (fun x hx => h x (by simp [hx]))]

/-- Leading whitespace of glued lines: blank lines pass through whole, and
the run ends inside the first non-blank line, right after its indentation. -/
theorem nlJoinTw {bs : List (List Char)} (hbs : ∀ b ∈ bs, wsList b = true)
    {lnb : List Char} (hnb : wsList lnb = false) (rest2 : List (List Char)) :
    (nlJoin (bs ++ lnb :: rest2)).takeWhile isWs
      = nlJoin bs ++ '\n' :: lnb.takeWhile isWs := by
  induction bs with
  | nil =>
    show (('\n' :: (lnb ++ nlJoin rest2)).takeWhile isWs) = _
    rw [List.takeWhile_cons, if_pos nlWs, twAppStop hnb]
    rfl
  | cons b bs ih =>
    show (('\n' :: (b ++ nlJoin (bs ++ lnb :: rest2))).takeWhile isWs) = _
    rw [List.takeWhile_cons, if_pos nlWs, twAppAll (hbs b (by simp)),
      ih (fun x hx => hbs x (by simp [hx]))]
    show _ = ('\n' :: (b ++ nlJoin bs)) ++ '\n' :: lnb.takeWhile isWs
    simp

theorem nlJoinDw {bs : List (List Char)} (hbs : ∀ b ∈ bs, wsList b = true)
    {lnb : List Char} (hnb : wsList lnb = false) (rest2 : List (List Char)) :
    (nlJoin (bs ++ lnb :: rest2)).dropWhile isWs
      = lnb.dropWhile isWs ++ nlJoin rest2 := by
  induction bs with
  | nil =>
    show (('\n' :: (lnb ++ nlJoin rest2)).dropWhile isWs) = _
    rw [List.dropWhile_cons, if_pos nlWs, dwAppStop hnb]
  | cons b bs ih =>
    show (('\n' :: (b ++ nlJoin (bs ++ lnb :: rest2))).dropWhile isWs) = _
    rw [List.dropWhile_cons, if_pos nlWs, dwAppAll (hbs b (by simp)),
      ih (fun x hx => hbs x (by simp [hx]))]

/-- What happens after `m:` has been matched: the trailing `(\s*)` group
takes the maximal whitespace run, and scanning resumes after it with the
`^` flag determined by the last consumed character.  In line terms this is
exactly a `spill` (if the matched line's tail is all whitespace) or a fresh
continuation (otherwise). -/
theorem afterMatchEq (m : List Char) (N : Nat)
    (ih : ∀ ls2 : List (List Char), ls2.length ≤ N → (∀ l ∈ ls2, ('\n' : Char) ∉ l) →
      scan m true (joinLines ls2) = joinLines (passLines m .fresh ls2))
    {tail : List Char} (hTail : ('\n' : Char) ∉ tail)
    {ls' : List (List Char)} (hLen : ls'.length ≤ N)
    (hwf : ∀ l ∈ ls', ('\n' : Char) ∉ l) :
    ((tail ++ nlJoin ls').takeWhile isWs) ++
      scan m (decide (((tail ++ nlJoin ls').takeWhile isWs).getLast? = some '\n'))
        ((tail ++ nlJoin ls').dropWhile isWs)
    = tail ++ nlJoin (passLines m (modeOfTail tail) ls') := by
  by_cases ht : wsList tail = true
  · rw [show modeOfTail tail = PMode.spill by unfold modeOfTail; rw [if_pos ht]]
    rcases hds : ls'.dropWhile wsList with _ | ⟨lnb, rest2⟩
    · -- every following line is blank (or there are none): the `(\s*)`
      -- group runs to the end of the document
      have hbs : ∀ b ∈ ls', wsList b = true := by
        intro b hb
        have hl : ls'.takeWhile wsList = ls' := by
          have := List.takeWhile_append_dropWhile wsList ls'
          rw [hds, List.append_nil] at this
          exact this
        exact twMem (hl ▸ hb)
      have hallws : (tail ++ nlJoin ls').all isWs = true := by
        have h1 : tail.all isWs = true := ht
        rw [List.all_append, h1, nlJoinWs hbs]
        rfl
      rw [twAll hallws, dwAll hallws, scan_nil, List.append_nil]
      rw [passSpillUnfold, hds]
      have hl : ls'.takeWhile wsList = ls' := by
        have := List.takeWhile_append_dropWhile wsList ls'
        rw [hds, List.append_nil] at this
        exact this
      rw [hl, List.append_nil]
    · -- there is a first non-blank line `lnb`
      have hsplit : ls'.takeWhile wsList ++ lnb :: rest2 = ls' := by
        have := List.takeWhile_append_dropWhile wsList ls'
        rw [hds] at this
        exact this
      have hbs : ∀ b ∈ ls'.takeWhile wsList, wsList b = true := fun b hb => twMem hb
      have hnb : wsList lnb = false := dwHeadFalse hds
      have hnbwf : ('\n' : Char) ∉ lnb := hwf lnb (by rw [← hsplit]; simp)
      have hrestwf : ∀ l ∈ rest2, ('\n' : Char) ∉ l := by
        intro l hl
        exact hwf l (by rw [← hsplit]; simp [hl])
      have hrestlen : rest2.length ≤ N := by
        have := congrArg List.length hsplit
        simp only [List.length_append, List.length_cons] at this
        omega
      have htw0 := nlJoinTw hbs hnb rest2
      rw [hsplit] at htw0
      have htw : (tail ++ nlJoin ls').takeWhile isWs
          = tail ++ (nlJoin (ls'.takeWhile wsList) ++ '\n' :: lnb.takeWhile isWs) := by
        rw [twAppAll ht, htw0]
      have hdw0 := nlJoinDw hbs hnb rest2
      rw [hsplit] at hdw0
      have hdw : (tail ++ nlJoin ls').dropWhile isWs
          = lnb.dropWhile isWs ++ nlJoin rest2 := by
        rw [dwAppAll ht, hdw0]
      -- the resumption point: first non-whitespace character of `lnb`
      rcases hrnb : lnb.dropWhile isWs with _ | ⟨c, xs⟩
      · exact absurd hrnb (dwNeNil hnb)
      have hc : isWs c = false := dwHeadFalse hrnb
      have hcx : ('\n' : Char) ∉ c :: xs := by
        rw [← hrnb]
        intro hmem
        exact hnbwf (dwMem hmem)
      have hscan : ∀ b : Bool, scan m b (lnb.dropWhile isWs ++ nlJoin rest2)
          = lnb.dropWhile isWs ++ nlJoin (passLines m .fresh rest2) := by
        intro b
        rw [hrnb]
        exact scanCopyNB m N ih hc hcx hrestlen hrestwf b
      rw [htw, hdw, hscan]
      rw [passSpillUnfold, hds]
      have hlnb : lnb.takeWhile isWs ++ lnb.dropWhile isWs = lnb :=
        List.takeWhile_append_dropWhile isWs lnb
      have hassemble : tail ++ (nlJoin (ls'.takeWhile wsList) ++ '\n' :: lnb.takeWhile isWs) ++
          (lnb.dropWhile isWs ++ nlJoin (passLines m .fresh rest2))
          = tail ++ nlJoin (ls'.takeWhile wsList ++ lnb :: passLines m .fresh rest2) := by
        rw [nlJoin_append]
        show _ = tail ++ (nlJoin (ls'.takeWhile wsList) ++
          '\n' :: (lnb ++ nlJoin (passLines m .fresh rest2)))
        conv_rhs => rw [← hlnb]
        simp only [List.append_assoc, List.cons_append]
      rw [hassemble]
  · -- the matched line's tail has a non-whitespace character: the `(\s*)`
    -- group stays inside the line
    rw [show modeOfTail tail = PMode.fresh by unfold modeOfTail; rw [if_neg ht]]
    have ht' : tail.all isWs = false := by
      cases h : tail.all isWs with
      | false => rfl
      | true => exact absurd h ht
    have htw : (tail ++ nlJoin ls').takeWhile isWs = tail.takeWhile isWs := twAppStop ht' _
    have hdw : (tail ++ nlJoin ls').dropWhile isWs = tail.dropWhile isWs ++ nlJoin ls' :=
      dwAppStop ht' _
    have hflag : (decide ((tail.takeWhile isWs).getLast? = some '\n')) = false := by
      apply getLastNotNl
      intro hmem
      exact hTail (twMemOf hmem)
    have hdtail : ('\n' : Char) ∉ tail.dropWhile isWs := fun hmem => hTail (dwMem hmem)
    rw [htw, hdw, hflag]
    cases ls' with
    | nil =>
      simp only [nlJoin, List.append_nil, passLines]
      rw [scanCopyEnd m hdtail, List.takeWhile_append_dropWhile]
    | cons l2 ls2 =>
      have hj : nlJoin (l2 :: ls2) = '\n' :: joinLines (l2 :: ls2) := rfl
      rw [hj, scanCopyMid m hdtail, ih (l2 :: ls2) hLen hwf,
        ← nlJoin_ne_nil_eq (passNeNil m .fresh (by simp)), ← List.append_assoc,
        List.takeWhile_append_dropWhile]

theorem keyHeadLen {m X : List Char} (h : keyHead m X = true) : m.length + 1 ≤ X.length := by
  unfold keyHead at h
  have h' := of_decide_eq_true h
  have := congrArg List.length h'
  rw [List.length_take, List.length_append] at this
  simp only [List.length_cons, List.length_nil] at this
  omega

theorem keyHeadSplit {m X : List Char} (h : keyHead m X = true) :
    X = m ++ ':' :: X.drop (m.length + 1) := by
  have h' := of_decide_eq_true h
  have h2 := List.take_append_drop (m.length + 1) X
  rw [h'] at h2
  rw [← h2]
  simp

theorem dropAppendLe {n : ℕ} {A : List Char} (h : n ≤ A.length) (B : List Char) :
    (A ++ B).drop n = A.drop n ++ B := by
  rw [List.drop_append_eq_append_drop, Nat.sub_eq_zero_of_le h, List.drop_zero]

/-- The positive step of `scan` for an arbitrary non-empty string. -/
theorem scan_pos (m : List Char) {s : List Char} (hs : s ≠ [])
    (h1 : s.takeWhile isWs ≠ []) (h2 : keyHead m (s.dropWhile isWs) = true) :
    scan m true s =
      s.takeWhile isWs ++ pfxChars ++ m ++ ':' ::
        (((s.dropWhile isWs).drop (m.length + 1)).takeWhile isWs ++
          scan m
            (decide ((((s.dropWhile isWs).drop (m.length + 1)).takeWhile isWs).getLast?
              = some '\n'))
            (((s.dropWhile isWs).drop (m.length + 1)).dropWhile isWs)) := by
  cases s with
  | nil => exact absurd rfl hs
  | cons c cs => exact scan_cons_pos m true c cs ⟨rfl, h1, h2⟩

/-- One `re.sub` pass, viewed through the line decomposition, is exactly
the line machine `passLines` started in `fresh` mode.  (The module name is
non-empty and all non-whitespace, which holds for every name in the list.) -/
theorem scanFreshEq (m : List Char) (hm2 : m.all (fun c => !isWs c) = true) :
    ∀ (N : Nat) (ls : List (List Char)), ls.length ≤ N →
      (∀ l ∈ ls, ('\n' : Char) ∉ l) →
      scan m true (joinLines ls) = joinLines (passLines m .fresh ls) := by
  intro N
  induction N with
  | zero =>
    intro ls hlen hwf
    have : ls = [] := List.length_eq_zero.mp (Nat.le_zero.mp hlen)
    subst this
    simp [joinLines, passLines, scan_nil]
  | succ N ih =>
    intro ls hlen hwf
    cases ls with
    | nil => simp [joinLines, passLines, scan_nil]
    | cons l ls' =>
      have hwl : ('\n' : Char) ∉ l := hwf l (by simp)
      have hwls : ∀ x ∈ ls', ('\n' : Char) ∉ x := fun x hx => hwf x (by simp [hx])
      have hlen' : ls'.length ≤ N := by
        simp only [List.length_cons] at hlen
        omega
      have hjoin : joinLines (l :: ls') = l ++ nlJoin ls' := rfl
      by_cases hbl : wsList l = true
      · -- the first line is all whitespace
        rcases hds : ls'.dropWhile wsList with _ | ⟨lnb, rest2⟩
        · -- every line is blank: the pass copies everything
          have hl : ls'.takeWhile wsList = ls' := by
            have := List.takeWhile_append_dropWhile wsList ls'
            rw [hds, List.append_nil] at this
            exact this
          have hbs : ∀ b ∈ ls', wsList b = true := fun b hb => twMem (hl ▸ hb)
          have hallws : (l ++ nlJoin ls').all isWs = true := by
            have h1 : l.all isWs = true := hbl
            rw [List.all_append, h1, nlJoinWs hbs]
            rfl
          rw [hjoin, scanWsCopy m hallws true,
            passBlank m (by
              intro x hx
              rcases List.mem_cons.mp hx with hx | hx
              · exact hx ▸ hbl
              · exact hbs x hx)]
          rfl
        · -- `lnb` is the first non-blank line below
          have hsplit : ls'.takeWhile wsList ++ lnb :: rest2 = ls' := by
            have := List.takeWhile_append_dropWhile wsList ls'
            rw [hds] at this
            exact this
          have hbs : ∀ b ∈ ls'.takeWhile wsList, wsList b = true := fun b hb => twMem hb
          have hnb : wsList lnb = false := dwHeadFalse hds
          have hlsne : ls' ≠ [] := by
            intro hh
            rw [hh] at hds
            simp [List.dropWhile] at hds
          have hnbwf : ('\n' : Char) ∉ lnb := hwls lnb (by rw [← hsplit]; simp)
          have hrestwf : ∀ x ∈ rest2, ('\n' : Char) ∉ x := by
            intro x hx
            exact hwls x (by rw [← hsplit]; simp [hx])
          have hrestlen : rest2.length ≤ N := by
            have := congrArg List.length hsplit
            simp only [List.length_append, List.length_cons] at this
            omega
          have hdw0 := nlJoinDw hbs hnb rest2
          rw [hsplit] at hdw0
          have htw0 := nlJoinTw hbs hnb rest2
          rw [hsplit] at htw0
          have hblall : l.all isWs = true := hbl
          have hdw : (l ++ nlJoin ls').dropWhile isWs
              = lnb.dropWhile isWs ++ nlJoin rest2 := by
            rw [dwAppAll hblall, hdw0]
          have htw : (l ++ nlJoin ls').takeWhile isWs
              = l ++ (nlJoin (ls'.takeWhile wsList) ++ '\n' :: lnb.takeWhile isWs) := by
            rw [twAppAll hblall, htw0]
          have hkh : keyHead m ((l ++ nlJoin ls').dropWhile isWs) = keyAtWs m lnb := by
            rw [hdw]
            cases rest2 with
            | nil => rw [nlJoin, List.append_nil]; rfl
            | cons r rs =>
              show keyHead m (lnb.dropWhile isWs ++ '\n' :: (r ++ nlJoin rs)) = _
              rw [keyHead_nlApp hm2]
              rfl
          have hkeyl : keyAtWs m l = false := by
            unfold keyAtWs
            rw [dwAll hblall, keyHead_nil]
          by_cases hck : keyAtWs m lnb = true
          · -- match across the newline: the match starts on line `l`
            have hne : l ++ nlJoin ls' ≠ [] := by
              cases hlq : l with
              | nil =>
                cases ls' with
                | nil => exact absurd rfl hlsne
                | cons a b => simp [nlJoin]
              | cons a b => simp
            have htwne : (l ++ nlJoin ls').takeWhile isWs ≠ [] := by
              rw [htw]
              cases hlq : l with
              | nil => simp
              | cons a b => simp
            rw [hjoin, scan_pos m hne htwne (by rw [hkh]; exact hck)]
            have hklen : m.length + 1 ≤ (lnb.dropWhile isWs).length := keyHeadLen hck
            have hs2 : ((l ++ nlJoin ls').dropWhile isWs).drop (m.length + 1)
                = (lnb.dropWhile isWs).drop (m.length + 1) ++ nlJoin rest2 := by
              rw [hdw, dropAppendLe hklen]
            have htailwf : ('\n' : Char) ∉ (lnb.dropWhile isWs).drop (m.length + 1) := by
              intro hmem
              exact hnbwf (dwMem (List.mem_of_mem_drop hmem))
            have ham := afterMatchEq m N ih htailwf hrestlen hrestwf
            rw [hs2, ham]
            -- right-hand side: the `wcross` path
            have hpass : passLines m .fresh (l :: ls')
                = l :: (ls'.takeWhile wsList ++
                    rewriteLine lnb :: passLines m (tailMode m lnb) rest2) := by
              rw [passLines, if_neg (by rintro ⟨hk, -⟩; rw [hkeyl] at hk; exact Bool.false_ne_true hk),
                if_pos ⟨hbl, by unfold crossKey; rw [hds]; exact hck⟩,
                passWcrossUnfold, hds]
            rw [hpass]
            have hmode : tailMode m lnb
                = modeOfTail ((lnb.dropWhile isWs).drop (m.length + 1)) := rfl
            rw [← hmode]
            -- assemble both strings
            have hlnbsplit : lnb.dropWhile isWs
                = m ++ ':' :: (lnb.dropWhile isWs).drop (m.length + 1) := keyHeadSplit hck
            rw [htw]
            show (l ++ (nlJoin (ls'.takeWhile wsList) ++ '\n' :: lnb.takeWhile isWs))
                ++ pfxChars ++ m ++ ':' ::
                ((lnb.dropWhile isWs).drop (m.length + 1) ++
                  nlJoin (passLines m (tailMode m lnb) rest2))
              = l ++ nlJoin (ls'.takeWhile wsList ++
                  rewriteLine lnb :: passLines m (tailMode m lnb) rest2)
            rw [nlJoin_append]
            show _ = l ++ (nlJoin (ls'.takeWhile wsList) ++
              '\n' :: (rewriteLine lnb ++ nlJoin (passLines m (tailMode m lnb) rest2)))
            unfold rewriteLine
            conv_rhs => rw [hlnbsplit]
            simp [List.append_assoc]
          · -- no match reachable from line `l`: copy it and continue fresh
            have hcondfail : ∀ c2 cs2, l ++ nlJoin ls' = c2 :: cs2 →
                ¬ (true = true ∧ (c2 :: cs2).takeWhile isWs ≠ [] ∧
                  keyHead m ((c2 :: cs2).dropWhile isWs) = true) := by
              intro c2 cs2 heq
              rintro ⟨-, -, hk⟩
              rw [← heq] at hk
              rw [hkh] at hk
              exact hck hk
            have hpass : passLines m .fresh (l :: ls') = l :: passLines m .fresh ls' := by
              rw [passLines, if_neg (by rintro ⟨hk, -⟩; rw [hkeyl] at hk; exact Bool.false_ne_true hk),
                if_neg (by
                  rintro ⟨-, hcrs⟩
                  unfold crossKey at hcrs
                  rw [hds] at hcrs
                  exact hck hcrs)]
            rw [hjoin, hpass]
            have hnlj : nlJoin ls' = '\n' :: joinLines ls' := nlJoin_ne_nil_eq hlsne
            cases hlq : l with
            | nil =>
              rw [List.nil_append, hnlj, scan_cons_neg m true '\n' (joinLines ls')
                  (by
                    have := hcondfail '\n' (joinLines ls') (by rw [hlq, List.nil_append, hnlj])
                    intro hh
                    exact this ⟨hh.1, hh.2.1, hh.2.2⟩)]
              rw [decide_eq_true (by rfl : ('\n' : Char) = '\n'), ih ls' hlen' hwls]
              show ('\n' : Char) :: joinLines (passLines m .fresh ls')
                = joinLines ([] :: passLines m .fresh ls')
              rw [joinLines, List.nil_append, nlJoin_ne_nil_eq (passNeNil m .fresh hlsne)]
            | cons c0 lrest =>
              have hc0 : ¬ c0 = '\n' := by
                intro hh
                rw [hlq] at hwl
                exact hwl (by simp [hh])
              have hlrest : ('\n' : Char) ∉ lrest := by
                rw [hlq] at hwl
                intro hmem
                exact hwl (by simp [hmem])
              rw [List.cons_append, scan_cons_neg m true c0 (lrest ++ nlJoin ls')
                  (by
                    have := hcondfail c0 (lrest ++ nlJoin ls') (by rw [hlq, List.cons_append])
                    intro hh
                    exact this ⟨hh.1, hh.2.1, hh.2.2⟩)]
              rw [decide_eq_false hc0, hnlj, scanCopyMid m hlrest, ih ls' hlen' hwls]
              show c0 :: (lrest ++ '\n' :: joinLines (passLines m .fresh ls'))
                = joinLines ((c0 :: lrest) :: passLines m .fresh ls')
              rw [joinLines, nlJoin_ne_nil_eq (passNeNil m .fresh hlsne)]
              simp
      · -- the first line has a non-whitespace character
        have hbl' : l.all isWs = false := by
          cases h : l.all isWs with
          | false => rfl
          | true => exact absurd h hbl
        have hlne : l ≠ [] := by
          intro hh
          rw [hh] at hbl'
          simp at hbl'
        have htw : (l ++ nlJoin ls').takeWhile isWs = l.takeWhile isWs := twAppStop hbl' _
        have hdw : (l ++ nlJoin ls').dropWhile isWs = l.dropWhile isWs ++ nlJoin ls' :=
          dwAppStop hbl' _
        have hkh : keyHead m ((l ++ nlJoin ls').dropWhile isWs) = keyAtWs m l := by
          rw [hdw]
          cases ls' with
          | nil => rw [nlJoin, List.append_nil]; rfl
          | cons r rs =>
            show keyHead m (l.dropWhile isWs ++ '\n' :: (r ++ nlJoin rs)) = _
            rw [keyHead_nlApp hm2]
            rfl
        by_cases hmatch : keyAtWs m l = true ∧ l.takeWhile isWs ≠ []
        · -- in-line match on `l`
          have hne : l ++ nlJoin ls' ≠ [] := by
            cases l with
            | nil => exact absurd rfl hlne
            | cons a b => simp
          have htwne : (l ++ nlJoin ls').takeWhile isWs ≠ [] := by
            rw [htw]
            exact hmatch.2
          rw [hjoin, scan_pos m hne htwne (by rw [hkh]; exact hmatch.1)]
          have hklen : m.length + 1 ≤ (l.dropWhile isWs).length := keyHeadLen hmatch.1
          have hs2 : ((l ++ nlJoin ls').dropWhile isWs).drop (m.length + 1)
              = (l.dropWhile isWs).drop (m.length + 1) ++ nlJoin ls' := by
            rw [hdw, dropAppendLe hklen]
          have htailwf : ('\n' : Char) ∉ (l.dropWhile isWs).drop (m.length + 1) := by
            intro hmem
            exact hwl (dwMem (List.mem_of_mem_drop hmem))
          have ham := afterMatchEq m N ih htailwf hlen' hwls
          rw [hs2, ham]
          have hpass : passLines m .fresh (l :: ls')
              = rewriteLine l :: passLines m (tailMode m l) ls' := by
            rw [passLines, if_pos hmatch]
          rw [hpass]
          have hmode : tailMode m l
              = modeOfTail ((l.dropWhile isWs).drop (m.length + 1)) := rfl
          rw [← hmode]
          have hlsplit : l.dropWhile isWs
              = m ++ ':' :: (l.dropWhile isWs).drop (m.length + 1) := keyHeadSplit hmatch.1
          rw [htw]
          show l.takeWhile isWs ++ pfxChars ++ m ++ ':' ::
              ((l.dropWhile isWs).drop (m.length + 1) ++
                nlJoin (passLines m (tailMode m l) ls'))
            = joinLines (rewriteLine l :: passLines m (tailMode m l) ls')
          rw [joinLines]
          unfold rewriteLine
          conv_rhs => rw [hlsplit]
          simp [List.append_assoc]
        · -- no match on `l`: copy the line
          have hpass : passLines m .fresh (l :: ls') = l :: passLines m .fresh ls' := by
            rw [passLines, if_neg hmatch, if_neg (by rintro ⟨hws, -⟩; exact hbl hws)]
          rw [hjoin, hpass]
          cases hlq : l with
          | nil => exact absurd hlq hlne
          | cons c0 lrest =>
            by_cases hc0ws : isWs c0 = true
            · -- indented line that does not match: takeWhile is non-empty,
              -- so keyAtWs must be false
              have hkeyl : keyAtWs m l = false := by
                cases hk : keyAtWs m l with
                | false => rfl
                | true =>
                  exfalso
                  apply hmatch
                  refine ⟨hk, ?_⟩
                  rw [hlq, List.takeWhile_cons, if_pos hc0ws]
                  simp
              have hc0 : ¬ c0 = '\n' := by
                intro hh
                rw [hlq] at hwl
                exact hwl (by simp [hh])
              have hlrest : ('\n' : Char) ∉ lrest := by
                rw [hlq] at hwl
                intro hmem
                exact hwl (by simp [hmem])
              rw [List.cons_append, scan_cons_neg m true c0 (lrest ++ nlJoin ls')
                  (by
                    rintro ⟨-, -, hk⟩
                    rw [← List.cons_append, ← hlq, hkh, hkeyl] at hk
                    exact Bool.false_ne_true hk)]
              rw [decide_eq_false hc0]
              cases ls' with
              | nil =>
                rw [show nlJoin [] = ([] : List Char) from rfl, List.append_nil,
                  scanCopyEnd m hlrest]
                simp [joinLines, nlJoin, passLines]
              | cons r rs =>
                have hnlj : nlJoin (r :: rs) = '\n' :: joinLines (r :: rs) := rfl
                rw [hnlj, scanCopyMid m hlrest, ih (r :: rs) hlen' hwls]
                show c0 :: (lrest ++ '\n' :: joinLines (passLines m .fresh (r :: rs)))
                  = joinLines ((c0 :: lrest) :: passLines m .fresh (r :: rs))
                rw [joinLines, nlJoin_ne_nil_eq (passNeNil m .fresh (by simp))]
                simp
            · -- the line starts with a non-whitespace character
              have hc0 : isWs c0 = false := by
                cases h : isWs c0 with
                | false => rfl
                | true => exact absurd h hc0ws
              rw [scanCopyNB m N ih hc0 (hlq ▸ hwl) hlen' hwls true]
              show (c0 :: lrest) ++ nlJoin (passLines m .fresh ls')
                = joinLines ((c0 :: lrest) :: passLines m .fresh ls')
              rw [joinLines]

/-! ## From the document transform to the line transform -/

/-- Every module name in the list is made of non-whitespace characters. -/
theorem builtinNoWs : ∀ m ∈ builtin_modules, m.all (fun c => !isWs c) = true := by
  decide

/-- The whole transform, pass by pass, on the line decomposition. -/
def passAll (ls : List (List Char)) : List (List Char) :=
  builtin_modules.foldl (fun acc mdl => passLines mdl .fresh acc) ls

theorem splitScan (m : List Char) (hm2 : m.all (fun c => !isWs c) = true) (s : List Char) :
    splitLines (scan m true s) = passLines m .fresh (splitLines s) := by
  have h1 : scan m true s = joinLines (passLines m .fresh (splitLines s)) := by
    have h := scanFreshEq m hm2 (splitLines s).length (splitLines s) le_rfl (splitLines_noNl s)
    rw [joinLines_splitLines] at h
    exact h
  rw [h1, splitLines_joinLines _ (passNeNil m .fresh (splitLines_ne_nil s))
    (passWF m .fresh _ (splitLines_noNl s))]

theorem foldSplit : ∀ (mods : List (List Char)),
    (∀ m ∈ mods, m.all (fun c => !isWs c) = true) → ∀ s : List Char,
    splitLines (mods.foldl (fun acc mdl => scan mdl true acc) s)
      = mods.foldl (fun acc mdl => passLines mdl .fresh acc) (splitLines s) := by
  intro mods
  induction mods with
  | nil => intro _ s; rfl
  | cons m mods ih =>
    intro hf s
    rw [List.foldl_cons, List.foldl_cons, ih (fun x hx => hf x (by simp [hx])),
      splitScan m (hf m (by simp))]

/-- The line view of the whole transform. -/
theorem splitFix (s : List Char) :
    splitLines (fix_fqcn_content s) = passAll (splitLines s) :=
  foldSplit builtin_modules builtinNoWs s

/-! ## Which lines a pass can rewrite

`passSoundAll` says a pass only ever replaces a line by its rewritten form,
and only when the line is keyed and (in `fresh` mode) either has non-empty
indentation or directly follows an all-whitespace line. -/

theorem tailModeCases (m l : List Char) :
    tailMode m l = PMode.spill ∨ tailMode m l = PMode.fresh := by
  unfold tailMode modeOfTail
  split
  · exact Or.inl rfl
  · exact Or.inr rfl

theorem passSoundAll (m : List Char) : ∀ (N : Nat) (ls : List (List Char)), ls.length ≤ N →
    ∀ (mo : PMode), (mo = PMode.wcross → crossKey m ls = true) →
    ∀ (i : Nat) (l lout : List Char),
    ls[i]? = some l → (passLines m mo ls)[i]? = some lout →
    lout = l ∨ (keyAtWs m l = true ∧ lout = rewriteLine l ∧
      (l.takeWhile isWs ≠ [] ∨
       (∃ j lp, i = j + 1 ∧ ls[j]? = some lp ∧ wsList lp = true) ∨
       (mo = PMode.wcross ∧ ∀ j lp, j < i → ls[j]? = some lp → wsList lp = true))) := by
  intro N
  induction N with
  | zero =>
    intro ls hlen mo _ i l lout hget _
    have : ls = [] := List.length_eq_zero.mp (Nat.le_zero.mp hlen)
    subst this
    simp at hget
  | succ N ih =>
    intro ls hlen mo hinv i l lout hget hgout
    cases ls with
    | nil => simp at hget
    | cons l0 ls' =>
      have hlen' : ls'.length ≤ N := by
        simp only [List.length_cons] at hlen
        omega
      cases mo with
      | spill =>
        rw [passLines] at hgout
        by_cases h0 : wsList l0 = true
        · rw [if_pos h0] at hgout
          cases i with
          | zero =>
            rw [List.getElem?_cons_zero] at hget hgout
            left
            exact (Option.some_inj.mp hgout).symm.trans (Option.some_inj.mp hget)
          | succ i =>
            rw [List.getElem?_cons_succ] at hget hgout
            rcases ih ls' hlen' .spill (by intro hh; cases hh) i l lout hget hgout with
              h | ⟨hk, hr, hc⟩
            · exact Or.inl h
            · refine Or.inr ⟨hk, hr, ?_⟩
              rcases hc with hc | ⟨j, lp, hij, hjp, hws⟩ | ⟨hmo, -⟩
              · exact Or.inl hc
              · exact Or.inr (Or.inl ⟨j + 1, lp, by omega, by
                  rw [List.getElem?_cons_succ]; exact hjp, hws⟩)
              · cases hmo
        · rw [if_neg h0] at hgout
          cases i with
          | zero =>
            rw [List.getElem?_cons_zero] at hget hgout
            left
            exact (Option.some_inj.mp hgout).symm.trans (Option.some_inj.mp hget)
          | succ i =>
            rw [List.getElem?_cons_succ] at hget hgout
            rcases ih ls' hlen' .fresh (by intro hh; cases hh) i l lout hget hgout with
              h | ⟨hk, hr, hc⟩
            · exact Or.inl h
            · refine Or.inr ⟨hk, hr, ?_⟩
              rcases hc with hc | ⟨j, lp, hij, hjp, hws⟩ | ⟨hmo, -⟩
              · exact Or.inl hc
              · exact Or.inr (Or.inl ⟨j + 1, lp, by omega, by
                  rw [List.getElem?_cons_succ]; exact hjp, hws⟩)
              · cases hmo
      | wcross =>
        rw [passLines] at hgout
        by_cases h0 : wsList l0 = true
        · rw [if_pos h0] at hgout
          cases i with
          | zero =>
            rw [List.getElem?_cons_zero] at hget hgout
            left
            exact (Option.some_inj.mp hgout).symm.trans (Option.some_inj.mp hget)
          | succ i =>
            rw [List.getElem?_cons_succ] at hget hgout
            have hinv' : crossKey m ls' = true := by
              have h1 := hinv rfl
              unfold crossKey at h1 ⊢
              rw [List.dropWhile_cons, if_pos h0] at h1
              exact h1
            rcases ih ls' hlen' .wcross (fun _ => hinv') i l lout hget hgout with
              h | ⟨hk, hr, hc⟩
            · exact Or.inl h
            · refine Or.inr ⟨hk, hr, ?_⟩
              rcases hc with hc | ⟨j, lp, hij, hjp, hws⟩ | ⟨-, hall⟩
              · exact Or.inl hc
              · exact Or.inr (Or.inl ⟨j + 1, lp, by omega, by
                  rw [List.getElem?_cons_succ]; exact hjp, hws⟩)
              · refine Or.inr (Or.inr ⟨rfl, ?_⟩)
                intro j lp hj hjp
                cases j with
                | zero =>
                  rw [List.getElem?_cons_zero] at hjp
                  rw [← Option.some_inj.mp hjp]
                  exact h0
                | succ j =>
                  rw [List.getElem?_cons_succ] at hjp
                  exact hall j lp (by omega) hjp
        · rw [if_neg h0] at hgout
          have hkey0 : keyAtWs m l0 = true := by
            have h1 := hinv rfl
            unfold crossKey at h1
            rw [List.dropWhile_cons, if_neg h0] at h1
            exact h1
          cases i with
          | zero =>
            rw [List.getElem?_cons_zero] at hget hgout
            refine Or.inr ⟨Option.some_inj.mp hget ▸ hkey0, ?_, ?_⟩
            · exact (Option.some_inj.mp hgout).symm.trans (congrArg rewriteLine (Option.some_inj.mp hget))
            · exact Or.inr (Or.inr ⟨rfl, fun j lp hj _ => absurd hj (by omega)⟩)
          | succ i =>
            rw [List.getElem?_cons_succ] at hget hgout
            rcases tailModeCases m l0 with hmo | hmo <;> rw [hmo] at hgout
            · rcases ih ls' hlen' .spill (by intro hh; cases hh) i l lout hget hgout with
                h | ⟨hk, hr, hc⟩
              · exact Or.inl h
              · refine Or.inr ⟨hk, hr, ?_⟩
                rcases hc with hc | ⟨j, lp, hij, hjp, hws⟩ | ⟨hmm, -⟩
                · exact Or.inl hc
                · exact Or.inr (Or.inl ⟨j + 1, lp, by omega, by
                    rw [List.getElem?_cons_succ]; exact hjp, hws⟩)
                · cases hmm
            · rcases ih ls' hlen' .fresh (by intro hh; cases hh) i l lout hget hgout with
                h | ⟨hk, hr, hc⟩
              · exact Or.inl h
              · refine Or.inr ⟨hk, hr, ?_⟩
                rcases hc with hc | ⟨j, lp, hij, hjp, hws⟩ | ⟨hmm, -⟩
                · exact Or.inl hc
                · exact Or.inr (Or.inl ⟨j + 1, lp, by omega, by
                    rw [List.getElem?_cons_succ]; exact hjp, hws⟩)
                · cases hmm
      | fresh =>
        rw [passLines] at hgout
        by_cases hA : keyAtWs m l0 = true ∧ l0.takeWhile isWs ≠ []
        · rw [if_pos hA] at hgout
          cases i with
          | zero =>
            rw [List.getElem?_cons_zero] at hget hgout
            refine Or.inr ⟨Option.some_inj.mp hget ▸ hA.1, ?_, ?_⟩
            · exact (Option.some_inj.mp hgout).symm.trans (congrArg rewriteLine (Option.some_inj.mp hget))
            · exact Or.inl (Option.some_inj.mp hget ▸ hA.2)
          | succ i =>
            rw [List.getElem?_cons_succ] at hget hgout
            rcases tailModeCases m l0 with hmo | hmo <;> rw [hmo] at hgout
            · rcases ih ls' hlen' .spill (by intro hh; cases hh) i l lout hget hgout with
                h | ⟨hk, hr, hc⟩
              · exact Or.inl h
              · refine Or.inr ⟨hk, hr, ?_⟩
                rcases hc with hc | ⟨j, lp, hij, hjp, hws⟩ | ⟨hmm, -⟩
                · exact Or.inl hc
                · exact Or.inr (Or.inl ⟨j + 1, lp, by omega, by
                    rw [List.getElem?_cons_succ]; exact hjp, hws⟩)
                · cases hmm
            · rcases ih ls' hlen' .fresh (by intro hh; cases hh) i l lout hget hgout with
                h | ⟨hk, hr, hc⟩
              · exact Or.inl h
              · refine Or.inr ⟨hk, hr, ?_⟩
                rcases hc with hc | ⟨j, lp, hij, hjp, hws⟩ | ⟨hmm, -⟩
                · exact Or.inl hc
                · exact Or.inr (Or.inl ⟨j + 1, lp, by omega, by
                    rw [List.getElem?_cons_succ]; exact hjp, hws⟩)
                · cases hmm
        · rw [if_neg hA] at hgout
          by_cases hB : wsList l0 = true ∧ crossKey m ls' = true
          · rw [if_pos hB] at hgout
            cases i with
            | zero =>
              rw [List.getElem?_cons_zero] at hget hgout
              left
              exact (Option.some_inj.mp hgout).symm.trans (Option.some_inj.mp hget)
            | succ i =>
              rw [List.getElem?_cons_succ] at hget hgout
              rcases ih ls' hlen' .wcross (fun _ => hB.2) i l lout hget hgout with
                h | ⟨hk, hr, hc⟩
              · exact Or.inl h
              · refine Or.inr ⟨hk, hr, ?_⟩
                rcases hc with hc | ⟨j, lp, hij, hjp, hws⟩ | ⟨-, hall⟩
                · exact Or.inl hc
                · exact Or.inr (Or.inl ⟨j + 1, lp, by omega, by
                    rw [List.getElem?_cons_succ]; exact hjp, hws⟩)
                · -- every line of `ls'` before `i` is blank; the predecessor
                  -- of position `i + 1` is therefore blank (or is `l0`)
                  cases i with
                  | zero =>
                    exact Or.inr (Or.inl ⟨0, l0, rfl, List.getElem?_cons_zero, hB.1⟩)
                  | succ i =>
                    rcases hp : ls'[i]? with _ | lp
                    · exfalso
                      have h1 : (i + 1) < ls'.length := by
                        rcases List.getElem?_eq_some.mp hget with ⟨h2, -⟩
                        omega
                      have h3 : ls'[i]? ≠ none := by
                        intro hh
                        have := List.getElem?_eq_none_iff.mp hh
                        omega
                      exact h3 hp
                    · exact Or.inr (Or.inl ⟨i + 1, lp, rfl, by
                        rw [List.getElem?_cons_succ]; exact hp, hall i lp (by omega) hp⟩)
          · rw [if_neg hB] at hgout
            cases i with
            | zero =>
              rw [List.getElem?_cons_zero] at hget hgout
              left
              exact (Option.some_inj.mp hgout).symm.trans (Option.some_inj.mp hget)
            | succ i =>
              rw [List.getElem?_cons_succ] at hget hgout
              rcases ih ls' hlen' .fresh (by intro hh; cases hh) i l lout hget hgout with
                h | ⟨hk, hr, hc⟩
              · exact Or.inl h
              · refine Or.inr ⟨hk, hr, ?_⟩
                rcases hc with hc | ⟨j, lp, hij, hjp, hws⟩ | ⟨hmm, -⟩
                · exact Or.inl hc
                · exact Or.inr (Or.inl ⟨j + 1, lp, by omega, by
                    rw [List.getElem?_cons_succ]; exact hjp, hws⟩)
                · cases hmm

/-- A keyed line has a non-whitespace character. -/
theorem keyNonblank {m l : List Char} (h : keyAtWs m l = true) : wsList l = false := by
  cases hb : wsList l with
  | false => rfl
  | true =>
    exfalso
    unfold keyAtWs at h
    rw [dwAll hb, keyHead_nil] at h
    exact Bool.false_ne_true h

/-- The element at the end of the `takeWhile` block, and the blanks before. -/
theorem twRegionGet {α : Type} (p : α → Bool) (ls : List α) :
    (∀ j x, j < (ls.takeWhile p).length → ls[j]? = some x → p x = true) ∧
    (∀ lnb rest, ls.dropWhile p = lnb :: rest →
      ls[(ls.takeWhile p).length]? = some lnb) := by
  constructor
  · intro j x hj hx
    rw [← List.takeWhile_append_dropWhile p ls, List.getElem?_append_left hj] at hx
    rcases List.getElem?_eq_some.mp hx with ⟨h1, h2⟩
    exact twMem (h2 ▸ List.getElem_mem h1)
  · intro lnb rest hds
    have h1 : ls = ls.takeWhile p ++ ls.dropWhile p :=
      (List.takeWhile_append_dropWhile p ls).symm
    calc ls[(ls.takeWhile p).length]?
        = (ls.takeWhile p ++ ls.dropWhile p)[(ls.takeWhile p).length]? := by rw [← h1]
      _ = (ls.dropWhile p)[0]? := by rw [List.getElem?_append_right le_rfl, Nat.sub_self]
      _ = some lnb := by rw [hds, List.getElem?_cons_zero]

/-- In `wcross` mode the first non-blank line is rewritten, whatever it is. -/
theorem wcrossComplete (m : List Char) : ∀ (ls : List (List Char)) (i : Nat) (l : List Char),
    ls[i]? = some l → wsList l = false →
    (∀ j lp, j < i → ls[j]? = some lp → wsList lp = true) →
    (passLines m .wcross ls)[i]? = some (rewriteLine l) := by
  intro ls
  induction ls with
  | nil => intro i l hget _ _; simp at hget
  | cons l0 ls' ih =>
    intro i l hget hnb hblanks
    cases i with
    | zero =>
      rw [List.getElem?_cons_zero] at hget
      have h0 : l0 = l := Option.some_inj.mp hget
      rw [passLines, if_neg (by rw [h0, hnb]; exact Bool.false_ne_true)]
      rw [List.getElem?_cons_zero, h0]
    | succ i =>
      rw [List.getElem?_cons_succ] at hget
      have h0 : wsList l0 = true := hblanks 0 l0 (by omega) List.getElem?_cons_zero
      rw [passLines, if_pos h0, List.getElem?_cons_succ]
      exact ih i l hget hnb (fun j lp hj hjp => hblanks (j + 1) lp (by omega)
        (by rw [List.getElem?_cons_succ]; exact hjp))

/-- Completeness of a pass: if line `i` is keyed, no other line is keyed
for this module, and line `i` either has non-empty indentation or directly
follows an all-whitespace line, then the pass rewrites line `i`. -/
theorem freshComplete (m : List Char) : ∀ (N : Nat) (ls : List (List Char)), ls.length ≤ N →
    ∀ (i : Nat) (l : List Char), ls[i]? = some l → keyAtWs m l = true →
    (∀ j lp, j ≠ i → ls[j]? = some lp → keyAtWs m lp = false) →
    (l.takeWhile isWs ≠ [] ∨
      (∃ j lp, i = j + 1 ∧ ls[j]? = some lp ∧ wsList lp = true)) →
    (passLines m .fresh ls)[i]? = some (rewriteLine l) := by
  intro N
  induction N with
  | zero =>
    intro ls hlen i l hget _ _ _
    have : ls = [] := List.length_eq_zero.mp (Nat.le_zero.mp hlen)
    subst this
    simp at hget
  | succ N ih =>
    intro ls hlen i l hget hkey huniq hfire
    cases ls with
    | nil => simp at hget
    | cons l0 ls' =>
      have hlen' : ls'.length ≤ N := by
        simp only [List.length_cons] at hlen
        omega
      cases i with
      | zero =>
        rw [List.getElem?_cons_zero] at hget
        have h0 : l0 = l := Option.some_inj.mp hget
        have htw : l.takeWhile isWs ≠ [] := by
          rcases hfire with h | ⟨j, lp, hij, -, -⟩
          · exact h
          · omega
        rw [passLines, if_pos ⟨h0 ▸ hkey, h0 ▸ htw⟩, List.getElem?_cons_zero, h0]
      | succ i =>
        rw [List.getElem?_cons_succ] at hget
        have hk0 : keyAtWs m l0 = false :=
          huniq 0 l0 (by omega) List.getElem?_cons_zero
        have hnA : ¬ (keyAtWs m l0 = true ∧ l0.takeWhile isWs ≠ []) := by
          rintro ⟨hk, -⟩
          rw [hk0] at hk
          exact Bool.false_ne_true hk
        by_cases hB : wsList l0 = true ∧ crossKey m ls' = true
        · -- the match enters through the blank line `l0`; by uniqueness the
          -- first non-blank line of `ls'` is line `i`
          have hnbl : wsList l = false := keyNonblank hkey
          rcases hds : ls'.dropWhile wsList with _ | ⟨lnb, rest⟩
          · exfalso
            have hck := hB.2
            unfold crossKey at hck
            rw [hds] at hck
            exact Bool.false_ne_true hck
          · have hkeynb : keyAtWs m lnb = true := by
              have hck := hB.2
              unfold crossKey at hck
              rw [hds] at hck
              exact hck
            have hlnbget : ls'[(ls'.takeWhile wsList).length]? = some lnb :=
              (twRegionGet wsList ls').2 lnb rest hds
            have hpos : (ls'.takeWhile wsList).length = i := by
              by_contra hne
              have := huniq ((ls'.takeWhile wsList).length + 1) lnb
                (by omega) (by rw [List.getElem?_cons_succ]; exact hlnbget)
              rw [hkeynb] at this
              exact Bool.true_eq_false.mp this
            have hblanks : ∀ j lp, j < i → ls'[j]? = some lp → wsList lp = true := by
              intro j lp hj hjp
              exact (twRegionGet wsList ls').1 j lp (by omega) hjp
            rw [passLines, if_neg hnA, if_pos hB, List.getElem?_cons_succ]
            exact wcrossComplete m ls' i l hget hnbl hblanks
        · -- `l0` is copied and the pass continues fresh
          rw [passLines, if_neg hnA, if_neg hB, List.getElem?_cons_succ]
          refine ih ls' hlen' i l hget hkey
            (fun j lp hj hjp => huniq (j + 1) lp (by omega)
              (by rw [List.getElem?_cons_succ]; exact hjp)) ?_
          rcases hfire with h | ⟨j, lp, hij, hjp, hws⟩
          · exact Or.inl h
          · have hj : j = i := by omega
            subst hj
            cases j with
            | zero =>
              -- the predecessor is `l0` itself and is blank, so `crossKey`
              -- ought to have held: contradiction with `hB`
              exfalso
              rw [List.getElem?_cons_zero] at hjp
              have h0 : l0 = lp := Option.some_inj.mp hjp
              apply hB
              refine ⟨h0 ▸ hws, ?_⟩
              -- line 1 is keyed hence non-blank, so it is the first
              -- non-blank line of `ls'`
              cases hls' : ls' with
              | nil =>
                rw [hls'] at hget
                simp at hget
              | cons a as =>
                rw [hls'] at hget
                rw [List.getElem?_cons_zero] at hget
                have ha : a = l := Option.some_inj.mp hget
                unfold crossKey
                rw [List.dropWhile_cons, if_neg (by rw [ha, keyNonblank hkey]; exact Bool.false_ne_true)]
                rw [ha]
                exact hkey
            | succ j =>
              rw [List.getElem?_cons_succ] at hjp
              exact Or.inr ⟨j, lp, rfl, hjp, hws⟩

/-- If no line can fire, a pass is the identity. -/
theorem passIdent (m : List Char) : ∀ (N : Nat) (ls : List (List Char)), ls.length ≤ N →
    (∀ i l, ls[i]? = some l → keyAtWs m l = true →
      l.takeWhile isWs = [] ∧
      (∀ j lp, i = j + 1 → ls[j]? = some lp → wsList lp = false)) →
    passLines m .fresh ls = ls := by
  intro N
  induction N with
  | zero =>
    intro ls hlen _
    have : ls = [] := List.length_eq_zero.mp (Nat.le_zero.mp hlen)
    subst this
    rfl
  | succ N ih =>
    intro ls hlen hnf
    cases ls with
    | nil => rfl
    | cons l0 ls' =>
      have hlen' : ls'.length ≤ N := by
        simp only [List.length_cons] at hlen
        omega
      have hnA : ¬ (keyAtWs m l0 = true ∧ l0.takeWhile isWs ≠ []) := by
        rintro ⟨hk, htw⟩
        exact htw (hnf 0 l0 List.getElem?_cons_zero hk).1
      have hnB : ¬ (wsList l0 = true ∧ crossKey m ls' = true) := by
        rintro ⟨hws, hck⟩
        unfold crossKey at hck
        rcases hds : ls'.dropWhile wsList with _ | ⟨lnb, rest⟩
        · rw [hds] at hck
          exact Bool.false_ne_true hck
        · rw [hds] at hck
          have hlnbget : ls'[(ls'.takeWhile wsList).length]? = some lnb :=
            (twRegionGet wsList ls').2 lnb rest hds
          have hkeynb : keyAtWs m lnb = true := hck
          have hpred := (hnf ((ls'.takeWhile wsList).length + 1) lnb
            (by rw [List.getElem?_cons_succ]; exact hlnbget) hkeynb).2
          cases hp : (ls'.takeWhile wsList).length with
          | zero =>
            have := hpred 0 l0 (by omega) List.getElem?_cons_zero
            rw [hws] at this
            exact Bool.true_eq_false.mp this
          | succ p =>
            have hplt : p < (ls'.takeWhile wsList).length := by omega
            have htwle : (ls'.takeWhile wsList).length ≤ ls'.length := by
              have h := congrArg List.length (List.takeWhile_append_dropWhile wsList ls')
              rw [List.length_append] at h
              omega
            rcases hx : ls'[p]? with _ | x
            · rw [List.getElem?_eq_none_iff] at hx
              omega
            · have hxblank : wsList x = true := (twRegionGet wsList ls').1 p x hplt hx
              have hcontra := hpred (p + 1) x (by omega)
                (by rw [List.getElem?_cons_succ]; exact hx)
              rw [hxblank] at hcontra
              exact Bool.true_eq_false.mp hcontra
      rw [passLines, if_neg hnA, if_neg hnB,
        ih ls' hlen' (fun i l hget hk => by
          have h1 := hnf (i + 1) l (by rw [List.getElem?_cons_succ]; exact hget) hk
          refine ⟨h1.1, ?_⟩
          intro j lp hij hjp
          exact h1.2 (j + 1) lp (by omega)
            (by rw [List.getElem?_cons_succ]; exact hjp))]

/-! ## Facts about the fixed module list and the inserted text -/

/-- The per-module facts the multi-pass arguments need: non-whitespace
characters, no colon, and `m:` is not how `ansible.builtin.` starts. -/
abbrev modOk (m : List Char) : Prop :=
  m.all (fun c => !isWs c) = true ∧ (':' : Char) ∉ m ∧
    keyHead m pfxChars = false ∧ m.length + 1 ≤ pfxChars.length

theorem builtinOk : ∀ m ∈ builtin_modules, modOk m := by decide

/-- Checking `m:` against a long enough prefix ignores the rest. -/
theorem keyHeadApp {m A : List Char} (h : m.length + 1 ≤ A.length) (X : List Char) :
    keyHead m (A ++ X) = keyHead m A := by
  unfold keyHead
  rw [List.take_append_eq_append_take, Nat.sub_eq_zero_of_le h, List.take_zero,
    List.append_nil]

/-- The leading whitespace and the rest of a rewritten line. -/
theorem rwTwDw (l : List Char) :
    (rewriteLine l).takeWhile isWs = l.takeWhile isWs ∧
    (rewriteLine l).dropWhile isWs = pfxChars ++ l.dropWhile isWs := by
  unfold rewriteLine
  have hpfx : pfxChars = 'a' :: "nsible.builtin.".data := by decide
  have ha : isWs 'a' = false := by decide
  constructor
  · rw [List.append_assoc, twAppAll (twWs l), hpfx, List.cons_append, List.takeWhile_cons, ha]
    simp
  · rw [List.append_assoc, dwAppAll (twWs l), hpfx, List.cons_append, List.dropWhile_cons, ha]
    simp [hpfx]

/-- A rewritten line is never keyed again, for any module of the list:
after its indentation it starts with `ansible.builtin.`, and no module name
followed by `:` is a prefix of that text. -/
theorem rwNotKeyed {m' : List Char} (hok : modOk m') (l : List Char) :
    keyAtWs m' (rewriteLine l) = false := by
  unfold keyAtWs
  rw [(rwTwDw l).2, keyHeadApp hok.2.2.2, hok.2.2.1]

/-- A rewritten line is not blank (it contains the letter `a`). -/
theorem rwNonblank (l : List Char) : wsList (rewriteLine l) = false := by
  unfold rewriteLine wsList
  have hpfx : pfxChars = 'a' :: "nsible.builtin.".data := by decide
  cases h : (l.takeWhile isWs ++ pfxChars ++ l.dropWhile isWs).all isWs with
  | false => rfl
  | true =>
    exfalso
    have ha : ('a' : Char) ∈ l.takeWhile isWs ++ pfxChars ++ l.dropWhile isWs := by
      refine List.mem_append_left _ (List.mem_append_right _ ?_)
      rw [hpfx]
      simp
    have := List.all_eq_true.mp h 'a' ha
    rw [show isWs 'a' = false by decide] at this
    exact Bool.false_ne_true this

/-- A rewritten line differs from the original (it is 16 characters
longer). -/
theorem rwNe (l : List Char) : rewriteLine l ≠ l := by
  intro h
  have hlen := congrArg List.length h
  unfold rewriteLine at hlen
  simp only [List.length_append] at hlen
  have h2 : (l.takeWhile isWs).length + (l.dropWhile isWs).length = l.length := by
    rw [← List.length_append, List.takeWhile_append_dropWhile]
  have h3 : pfxChars.length = 16 := by decide
  omega

/-- Two colon-free module names that key the same text are equal. -/
theorem keyUniqueLe {m m' X : List Char} (hle : m.length ≤ m'.length)
    (hm' : (':' : Char) ∉ m') (h : keyHead m X = true) (h' : keyHead m' X = true) :
    m = m' := by
  have e1 : X.take (m.length + 1) = m ++ [':'] := of_decide_eq_true h
  have e2 : X.take (m'.length + 1) = m' ++ [':'] := of_decide_eq_true h'
  have h3 : (m' ++ [':']).take (m.length + 1) = m ++ [':'] := by
    rw [← e2, List.take_take, min_eq_left (by omega), e1]
  rcases Nat.lt_or_ge m.length m'.length with hlt | hge
  · exfalso
    have h4 : (m' ++ [':']).take (m.length + 1) = m'.take (m.length + 1) := by
      rw [List.take_append_eq_append_take, Nat.sub_eq_zero_of_le (by omega), List.take_zero,
        List.append_nil]
    rw [h4] at h3
    have hmem : (':' : Char) ∈ m'.take (m.length + 1) := by
      rw [h3]
      exact List.mem_append_right _ (by simp)
    exact hm' (List.mem_of_mem_take hmem)
  · have heq : m.length = m'.length := le_antisymm hle hge
    have h4 : (m' ++ [':']).take (m.length + 1) = m' ++ [':'] :=
      List.take_of_length_le (by simp [heq])
    rw [h4] at h3
    exact (List.append_inj_left h3 (by simp [heq])).symm

theorem keyUnique {m m' X : List Char} (hm : (':' : Char) ∉ m)
    (hm' : (':' : Char) ∉ m') (h : keyHead m X = true) (h' : keyHead m' X = true) :
    m = m' := by
  rcases Nat.le_total m.length m'.length with hle | hle
  · exact keyUniqueLe hle hm' h h'
  · exact (keyUniqueLe hle hm h' h).symm

/-! ## Multi-pass lemmas -/

/-- A line that no listed module keys survives the whole fold unchanged. -/
theorem foldFrozen : ∀ (mods : List (List Char)) (ls : List (List Char)) (i : Nat)
    (x : List Char), ls[i]? = some x → (∀ m' ∈ mods, keyAtWs m' x = false) →
    (mods.foldl (fun acc mdl => passLines mdl .fresh acc) ls)[i]? = some x := by
  intro mods
  induction mods with
  | nil => intro ls i x hget _; exact hget
  | cons m1 tail ih =>
    intro ls i x hget hkeys
    rw [List.foldl_cons]
    have hi : i < ls.length := by
      rcases List.getElem?_eq_some.mp hget with ⟨h, -⟩
      exact h
    have hi' : i < (passLines m1 .fresh ls).length := by
      rw [passLen]
      exact hi
    have hsome : (passLines m1 .fresh ls)[i]? = some ((passLines m1 .fresh ls)[i]) :=
      List.getElem?_eq_getElem hi'
    rcases passSoundAll m1 ls.length ls le_rfl .fresh (by intro hh; cases hh) i x _
        hget hsome with h | ⟨hk, -, -⟩
    · rw [h] at hsome
      exact ih _ i x hsome (fun m' hm' => hkeys m' (by simp [hm']))
    · rw [hkeys m1 (by simp)] at hk
      exact absurd hk Bool.false_ne_true

/-- Every line of the full transform is the original line or its rewritten
form, the latter only when some module keys it. -/
theorem foldSound : ∀ (mods : List (List Char)), (∀ m' ∈ mods, modOk m') →
    ∀ (ls : List (List Char)) (i : Nat) (l : List Char), ls[i]? = some l →
    ∃ lout, (mods.foldl (fun acc mdl => passLines mdl .fresh acc) ls)[i]? = some lout ∧
      (lout = l ∨ ∃ m ∈ mods, keyAtWs m l = true ∧ lout = rewriteLine l) := by
  intro mods
  induction mods with
  | nil => intro _ ls i l hget; exact ⟨l, hget, Or.inl rfl⟩
  | cons m1 tail ih =>
    intro hok ls i l hget
    rw [List.foldl_cons]
    have hi : i < ls.length := by
      rcases List.getElem?_eq_some.mp hget with ⟨h, -⟩
      exact h
    have hi' : i < (passLines m1 .fresh ls).length := by
      rw [passLen]; exact hi
    have hsome : (passLines m1 .fresh ls)[i]? = some ((passLines m1 .fresh ls)[i]) :=
      List.getElem?_eq_getElem hi'
    rcases passSoundAll m1 ls.length ls le_rfl .fresh (by intro hh; cases hh) i l _
        hget hsome with h | ⟨hk, hr, -⟩
    · rw [h] at hsome
      rcases ih (fun m' hm' => hok m' (by simp [hm'])) _ i l hsome with ⟨lout, hgo, hcase⟩
      refine ⟨lout, hgo, ?_⟩
      rcases hcase with hc | ⟨m, hm, hkm, hrm⟩
      · exact Or.inl hc
      · exact Or.inr ⟨m, by simp [hm], hkm, hrm⟩
    · rw [hr] at hsome
      have hfro := foldFrozen tail _ i (rewriteLine l) hsome
        (fun m' hm' => rwNotKeyed (hok m' (by simp [hm'])) l)
      exact ⟨rewriteLine l, hfro, Or.inr ⟨m1, by simp, hk, rfl⟩⟩

/-- Completeness through the whole fold: a line keyed by `m`, unique for
`m`, that can fire, ends up rewritten. -/
theorem foldCompleteU : ∀ (mods : List (List Char)), (∀ m' ∈ mods, modOk m') →
    ∀ (ls : List (List Char)) (i : Nat) (l m : List Char), m ∈ mods →
    ls[i]? = some l → keyAtWs m l = true →
    (∀ j lp, j ≠ i → ls[j]? = some lp → keyAtWs m lp = false) →
    (l.takeWhile isWs ≠ [] ∨
      (∃ j lp, i = j + 1 ∧ ls[j]? = some lp ∧ wsList lp = true)) →
    (mods.foldl (fun acc mdl => passLines mdl .fresh acc) ls)[i]?
      = some (rewriteLine l) := by
  intro mods
  induction mods with
  | nil => intro _ ls i l m hm; exact absurd hm (List.not_mem_nil m)
  | cons m1 tail ih =>
    intro hok ls i l m hm hget hkey huniq hfire
    rw [List.foldl_cons]
    by_cases hkey1 : keyAtWs m1 l = true
    · -- `m1` keys line `i`, so this very pass rewrites it
      have huniq1 : ∀ j lp, j ≠ i → ls[j]? = some lp → keyAtWs m1 lp = false := by
        intro j lp hj hjp
        cases hklp : keyAtWs m1 lp with
        | false => rfl
        | true =>
          exfalso
          have hmeq : m1 = m := keyUnique (hok m1 (by simp)).2.1
            (by
              rcases List.mem_cons.mp hm with hmm | hmm
              · rw [hmm]; exact (hok m1 (by simp)).2.1
              · exact (hok m (by simp [hmm])).2.1) hkey1 hkey
          rw [hmeq] at hklp
          have := huniq j lp hj hjp
          rw [hklp] at this
          exact Bool.true_eq_false.mp this
      have h1 := freshComplete m1 ls.length ls le_rfl i l hget hkey1 huniq1 hfire
      exact foldFrozen tail _ i (rewriteLine l) h1
        (fun m' hm' => rwNotKeyed (hok m' (by simp [hm'])) l)
    · -- `m1` does not key line `i`; it may rewrite other lines but the
      -- relevant structure survives
      have hm1ne : m ≠ m1 := by
        intro hh
        rw [hh] at hkey
        exact hkey1 hkey
      have hmtail : m ∈ tail := by
        rcases List.mem_cons.mp hm with hmm | hmm
        · exact absurd hmm hm1ne
        · exact hmm
      have hi : i < ls.length := by
        rcases List.getElem?_eq_some.mp hget with ⟨h, -⟩
        exact h
      have hi' : i < (passLines m1 .fresh ls).length := by
        rw [passLen]; exact hi
      have hsome : (passLines m1 .fresh ls)[i]? = some ((passLines m1 .fresh ls)[i]) :=
        List.getElem?_eq_getElem hi'
      have hsame : (passLines m1 .fresh ls)[i]? = some l := by
        rcases passSoundAll m1 ls.length ls le_rfl .fresh (by intro hh; cases hh) i l _
            hget hsome with h | ⟨hk, -, -⟩
        · rw [h] at hsome; exact hsome
        · exact absurd hk hkey1
      refine ih (fun m' hm' => hok m' (by simp [hm'])) _ i l m hmtail hsame hkey ?_ ?_
      · -- uniqueness survives the pass
        intro j lp hj hjp
        have hj' : j < ls.length := by
          rcases List.getElem?_eq_some.mp hjp with ⟨h, -⟩
          rw [passLen] at h
          exact h
        have hjorig : ls[j]? = some (ls[j]) := List.getElem?_eq_getElem hj'
        rcases passSoundAll m1 ls.length ls le_rfl .fresh (by intro hh; cases hh) j
            (ls[j]) lp hjorig hjp with h | ⟨-, hr, -⟩
        · rw [h]
          exact huniq j (ls[j]) hj hjorig
        · rw [hr]
          exact rwNotKeyed (hok m (by simp [hmtail])) _
      · -- the fire condition survives the pass (blank lines stay blank)
        rcases hfire with h | ⟨j, lp, hij, hjp, hws⟩
        · exact Or.inl h
        · have hj' : j < ls.length := by
            rcases List.getElem?_eq_some.mp hjp with ⟨h, -⟩
            exact h
          have hjo' : j < (passLines m1 .fresh ls).length := by
            rw [passLen]; exact hj'
          have hjout : (passLines m1 .fresh ls)[j]?
              = some ((passLines m1 .fresh ls)[j]) := List.getElem?_eq_getElem hjo'
          rcases passSoundAll m1 ls.length ls le_rfl .fresh (by intro hh; cases hh) j lp _
              hjp hjout with h | ⟨hk, -, -⟩
          · rw [h] at hjout
            exact Or.inr ⟨j, lp, hij, hjout, hws⟩
          · exfalso
            have := keyNonblank hk
            rw [hws] at this
            exact Bool.true_eq_false.mp this

/-- If no listed module keys any line, the whole fold is the identity. -/
theorem foldIdent : ∀ (mods : List (List Char)) (ls : List (List Char)),
    (∀ m' ∈ mods, ∀ (i : Nat) (l : List Char), ls[i]? = some l → keyAtWs m' l = false) →
    mods.foldl (fun acc mdl => passLines mdl .fresh acc) ls = ls := by
  intro mods
  induction mods with
  | nil => intro ls _; rfl
  | cons m1 tail ih =>
    intro ls hnk
    rw [List.foldl_cons, passIdent m1 ls.length ls le_rfl (by
      intro i l hget hkey
      have hcon := hnk m1 (by simp) i l hget
      rw [hkey] at hcon
      exact absurd hcon (by intro hh; cases hh))]
    exact ih ls (fun m' hm' => hnk m' (by simp [hm']))

theorem foldLen (mods : List (List Char)) (ls : List (List Char)) :
    (mods.foldl (fun acc mdl => passLines mdl .fresh acc) ls).length = ls.length := by
  induction mods generalizing ls with
  | nil => rfl
  | cons m1 tail ih =>
    rw [List.foldl_cons, ih, passLen]

/-- The module names are non-empty. -/
theorem builtinNe : ∀ m ∈ builtin_modules, m ≠ [] := by decide

/-- Splitting a keyed line at its indentation. -/
theorem lineWsSplit {w mname r : List Char} (hw : wsList w = true)
    (hm : mname.all (fun c => !isWs c) = true) (hne : mname ≠ []) :
    (w ++ (mname ++ ':' :: r)).takeWhile isWs = w ∧
    (w ++ (mname ++ ':' :: r)).dropWhile isWs = mname ++ ':' :: r := by
  cases mname with
  | nil => exact absurd rfl hne
  | cons c mr =>
    have hc : isWs c = false := by
      have := List.all_eq_true.mp hm c (by simp)
      cases h : isWs c with
      | false => rfl
      | true => rw [h] at this; exact absurd this (by decide)
    constructor
    · rw [twAppAll hw, List.cons_append, List.takeWhile_cons, hc]
      simp
    · rw [dwAppAll hw, List.cons_append, List.dropWhile_cons, hc]
      simp

theorem keyHeadSelf (mname r : List Char) : keyHead mname (mname ++ ':' :: r) = true := by
  unfold keyHead
  rw [List.append_cons, show mname.length + 1 = (mname ++ [':']).length by simp,
    List.take_left]
  simp

/-- A line with empty indentation whose predecessor (if any) is not blank
survives the whole fold unchanged: the `(\s+)` group has nothing to match. -/
theorem foldNoFire : ∀ (mods : List (List Char)), (∀ m' ∈ mods, modOk m') →
    ∀ (ls : List (List Char)) (i : Nat) (l : List Char), ls[i]? = some l →
    l.takeWhile isWs = [] →
    (∀ (j : Nat) (lp : List Char), i = j + 1 → ls[j]? = some lp → wsList lp = false) →
    (mods.foldl (fun acc mdl => passLines mdl .fresh acc) ls)[i]? = some l := by
  intro mods
  induction mods with
  | nil => intro _ ls i l hget _ _; exact hget
  | cons m1 tail ih =>
    intro hok ls i l hget htw hpred
    rw [List.foldl_cons]
    have hi : i < ls.length := by
      rcases List.getElem?_eq_some.mp hget with ⟨h, -⟩
      exact h
    have hi' : i < (passLines m1 .fresh ls).length := by
      rw [passLen]; exact hi
    have hsome : (passLines m1 .fresh ls)[i]? = some ((passLines m1 .fresh ls)[i]) :=
      List.getElem?_eq_getElem hi'
    have hsame : (passLines m1 .fresh ls)[i]? = some l := by
      rcases passSoundAll m1 ls.length ls le_rfl .fresh (by intro hh; cases hh) i l _
          hget hsome with h | ⟨-, -, hc⟩
      · rw [h] at hsome; exact hsome
      · exfalso
        rcases hc with hc | ⟨j, lp, hij, hjp, hws⟩ | ⟨hmm, -⟩
        · exact hc htw
        · have := hpred j lp hij hjp
          rw [hws] at this
          exact Bool.true_eq_false.mp this
        · cases hmm
    refine ih (fun m' hm' => hok m' (by simp [hm'])) _ i l hsame htw ?_
    intro j lp hij hjp
    have hj : j < ls.length := by
      rcases List.getElem?_eq_some.mp hjp with ⟨h, -⟩
      rw [passLen] at h
      exact h
    have hjo : ls[j]? = some (ls[j]) := List.getElem?_eq_getElem hj
    rcases passSoundAll m1 ls.length ls le_rfl .fresh (by intro hh; cases hh) j
        (ls[j]) lp hjo hjp with h | ⟨-, hr, -⟩
    · rw [h]
      exact hpred j (ls[j]) hij hjo
    · rw [hr]
      exact rwNonblank _

/-- If every keyed line of `ls` has empty indentation and a non-blank
predecessor, the whole fold is the identity. -/
theorem foldIdent2 : ∀ (mods : List (List Char)) (ls : List (List Char)),
    (∀ m' ∈ mods, ∀ (i : Nat) (l : List Char), ls[i]? = some l → keyAtWs m' l = true →
      l.takeWhile isWs = [] ∧
      (∀ (j : Nat) (lp : List Char), i = j + 1 → ls[j]? = some lp → wsList lp = false)) →
    mods.foldl (fun acc mdl => passLines mdl .fresh acc) ls = ls := by
  intro mods
  induction mods with
  | nil => intro ls _; rfl
  | cons m1 tail ih =>
    intro ls hnf
    rw [List.foldl_cons, passIdent m1 ls.length ls le_rfl (hnf m1 (by simp))]
    exact ih ls (fun m' hm' => hnf m' (by simp [hm']))

/-- After the whole transform, under the hypothesis that each module keys
at most one line of the input, no keyed line can still fire: those that
could fire were rewritten, and rewritten lines are not keyed. -/
theorem passAllIdemCore (ls : List (List Char))
    (U : ∀ m ∈ builtin_modules, ∀ (i j : Nat) (l l' : List Char),
      ls[i]? = some l → ls[j]? = some l' →
      keyAtWs m l = true → keyAtWs m l' = true → i = j) :
    ∀ m' ∈ builtin_modules, ∀ (i : Nat) (l : List Char),
      (passAll ls)[i]? = some l → keyAtWs m' l = true →
      l.takeWhile isWs = [] ∧
      (∀ (j : Nat) (lp : List Char), i = j + 1 → (passAll ls)[j]? = some lp →
        wsList lp = false) := by
  intro m hm i l hget hkey
  have hget' : (builtin_modules.foldl (fun acc mdl => passLines mdl .fresh acc) ls)[i]?
      = some l := hget
  have hi : i < ls.length := by
    rcases List.getElem?_eq_some.mp hget' with ⟨h, -⟩
    rw [foldLen] at h
    exact h
  have horig : ls[i]? = some (ls[i]) := List.getElem?_eq_getElem hi
  rcases foldSound builtin_modules builtinOk ls i (ls[i]) horig with ⟨lout, hgo, hcase⟩
  have hlo : lout = l := Option.some_inj.mp (hgo.symm.trans hget')
  have hlorig : l = ls[i] := by
    rcases hcase with hc | ⟨m2, hm2, hk2, hr2⟩
    · rw [← hlo, hc]
    · exfalso
      rw [hlo] at hr2
      rw [hr2, rwNotKeyed (builtinOk m hm)] at hkey
      exact Bool.false_ne_true hkey
  have hnofire : ¬ (l.takeWhile isWs ≠ [] ∨
      ∃ j lp, i = j + 1 ∧ ls[j]? = some lp ∧ wsList lp = true) := by
    intro hfire
    have huniq : ∀ (j : Nat) (lp : List Char), j ≠ i → ls[j]? = some lp →
        keyAtWs m lp = false := by
      intro j lp hj hjp
      cases hk : keyAtWs m lp with
      | false => rfl
      | true =>
        exact absurd (U m hm j i lp l hjp (by rw [hlorig]; exact horig) hk hkey) hj
    have hrw := foldCompleteU builtin_modules builtinOk ls i l m hm
      (by rw [hlorig]; exact horig) hkey huniq hfire
    have heq : rewriteLine l = l := Option.some_inj.mp (hrw.symm.trans hget')
    exact rwNe l heq
  rw [not_or] at hnofire
  refine ⟨by_contra (fun hh => hnofire.1 hh), ?_⟩
  intro j lp hij hjp
  have hjp' : (builtin_modules.foldl (fun acc mdl => passLines mdl .fresh acc) ls)[j]?
      = some lp := hjp
  have hj : j < ls.length := by omega
  have horigj : ls[j]? = some (ls[j]) := List.getElem?_eq_getElem hj
  rcases foldSound builtin_modules builtinOk ls j (ls[j]) horigj with ⟨loutj, hgoj, hcasej⟩
  have hloj : loutj = lp := Option.some_inj.mp (hgoj.symm.trans hjp')
  rcases hcasej with hc | ⟨m2, hm2, hk2, hr2⟩
  · -- `lp` is the original line `j`; if it were blank, line `i` could fire
    rw [hloj] at hc
    cases hb : wsList lp with
    | false => rfl
    | true =>
      exfalso
      apply hnofire.2
      exact ⟨j, lp, hij, by rw [← hc] at horigj; exact horigj, hb⟩
  · rw [hloj] at hr2
    rw [hr2]
    exact rwNonblank _

/-- Idempotence of the whole transform when each module name keys at most
one line of the input. -/
theorem fix_fqcn_idem_of_unique (s : List Char)
    (U : ∀ m ∈ builtin_modules, ∀ (i j : Nat) (l l' : List Char),
      (splitLines s)[i]? = some l → (splitLines s)[j]? = some l' →
      keyAtWs m l = true → keyAtWs m l' = true → i = j) :
    fix_fqcn_content (fix_fqcn_content s) = fix_fqcn_content s := by
  have hid : passAll (passAll (splitLines s)) = passAll (splitLines s) := by
    unfold passAll
    exact foldIdent2 builtin_modules _ (by
      intro m' hm' i l hget hkey
      exact passAllIdemCore (splitLines s) U m' hm' i l hget hkey)
  have h1 : splitLines (fix_fqcn_content (fix_fqcn_content s))
      = splitLines (fix_fqcn_content s) := by
    rw [splitFix (fix_fqcn_content s), splitFix s, hid]
  calc fix_fqcn_content (fix_fqcn_content s)
      = joinLines (splitLines (fix_fqcn_content (fix_fqcn_content s))) :=
        (joinLines_splitLines _).symm
    _ = joinLines (splitLines (fix_fqcn_content s)) := by rw [h1]
    _ = fix_fqcn_content s := joinLines_splitLines _

/-! ## The file operation and the command line

`fix_fqcn_in_file` reads the file, transforms the content, and writes it
back, printing `✅ Fixed FQCN issues in {path}` and returning `True`; any
exception is caught, `❌ Error fixing {path}: {e}` is printed, and `False`
is returned.  The `__main__` block exits 1 with a usage line unless exactly
one argument is given, and otherwise exits 0 or 1 as the function returned
`True` or `False`.

The file system model: `fileContent` is the state of the file at the given
path (`none` when no file exists, in which case `open(path)` raises and
`readMsg` is the exception's text).  The write-back step
`open(file_path, 'w'); f.write(content)` is modelled by `writeOutcome`:

* `ok` — the new content is on disk;
* `failOpen e` — `open(..., 'w')` itself raised (for example a permission
  error): the file is untouched;
* `failWrite e` — the open succeeded, which already truncated the file,
  and the write then raised: the file is left truncated (empty; in reality
  a partial write is also possible, but in no case is the original content
  still on disk). -/

inductive WriteOutcome where
  | ok : WriteOutcome
  | failOpen : List Char → WriteOutcome
  | failWrite : List Char → WriteOutcome

structure SysModel where
  fileContent : Option (List Char)
  readMsg : List Char
  writeOutcome : WriteOutcome

structure RunResult where
  fs : Option (List Char)
  ok : Bool
  printed : List (List Char)

def errMsg (path e : List Char) : List Char :=
  "❌ Error fixing ".data ++ path ++ ": ".data ++ e

def okMsg (path : List Char) : List Char :=
  "✅ Fixed FQCN issues in ".data ++ path

def usageMsg : List Char := "Usage: python3 fix_fqcn.py <ansible_file.yml>".data

def fix_fqcn_in_file (path : List Char) (sys : SysModel) : RunResult :=
  match sys.fileContent with
  | none => { fs := none, ok := false, printed := [errMsg path sys.readMsg] }
  | some content =>
    match sys.writeOutcome with
    | .ok => { fs := some (fix_fqcn_content content), ok := true,
               printed := [okMsg path] }
    | .failOpen e => { fs := some content, ok := false, printed := [errMsg path e] }
    | .failWrite e => { fs := some [], ok := false, printed := [errMsg path e] }

structure MainResult where
  exitCode : Nat
  printed : List (List Char)
  fs : Option (List Char)

/-- The `__main__` block.  `argv` is `sys.argv[1:]`, so the Python check
`len(sys.argv) != 2` is `argv.length ≠ 1`. -/
def main_fix (argv : List (List Char)) (sys : SysModel) : MainResult :=
  if argv.length ≠ 1 then
    { exitCode := 1, printed := [usageMsg], fs := sys.fileContent }
  else
    let r := fix_fqcn_in_file argv.headI sys
    { exitCode := if r.ok then 0 else 1, printed := r.printed, fs := r.fs }

/-! ## Substring and pattern helpers used to state claims -/

/-- `l` begins with `p`. -/
def startsWithSeg (p l : List Char) : Bool := decide (l.take p.length = p)

/-- `p` occurs somewhere in `l`. -/
def hasSub (p : List Char) : List Char → Bool
  | [] => startsWithSeg p []
  | c :: t => startsWithSeg p (c :: t) || hasSub p t

/-- Modelled from the spec's words: the line matches `^\s*(m):\s*$`
(possibly empty indentation, the module name, a colon, then only
whitespace).  This is the pattern the specification states in its
"testable properties" section; note `\s*`, where the program's own pattern
has `\s+`. -/
def specLineMatch (m l : List Char) : Bool :=
  keyAtWs m l && wsList ((l.dropWhile isWs).drop (m.length + 1))

theorem hasSubHere (p b : List Char) : startsWithSeg p (p ++ b) = true := by
  unfold startsWithSeg
  rw [List.take_left]
  simp

theorem hasSubStarts : ∀ {l p : List Char}, startsWithSeg p l = true → hasSub p l = true := by
  intro l p h
  cases l with
  | nil => exact h
  | cons c t =>
    rw [hasSub, h]
    simp

theorem hasSubMid : ∀ (a p b : List Char), hasSub p (a ++ (p ++ b)) = true := by
  intro a
  induction a with
  | nil =>
    intro p b
    rw [List.nil_append]
    exact hasSubStarts (hasSubHere p b)
  | cons c t ih =>
    intro p b
    rw [List.cons_append, hasSub, ih]
    simp

theorem keyHeadConsFalse {m : List Char} {c : Char} (t : List Char)
    (hm : m ≠ []) (hc : m.headD ' ' ≠ c) : keyHead m (c :: t) = false := by
  cases m with
  | nil => exact absurd rfl hm
  | cons c1 mr =>
    unfold keyHead
    rw [List.length_cons, List.take_succ_cons, decide_eq_false]
    intro h
    rw [List.cons_append] at h
    injection h with h1 _
    exact hc h1.symm

/-- A keyed line decomposes as whitespace, the name, the colon, a rest —
and its rewritten form inserts the prefix in front of the name. -/
theorem keyDecomp {m l : List Char} (hk : keyAtWs m l = true) :
    ∃ w r, wsList w = true ∧ l = w ++ (m ++ ':' :: r) ∧
      rewriteLine l = w ++ (pfxChars ++ (m ++ ':' :: r)) := by
  refine ⟨l.takeWhile isWs, (l.dropWhile isWs).drop (m.length + 1), twWs l, ?_, ?_⟩
  · conv_lhs => rw [← List.takeWhile_append_dropWhile isWs l]
    exact congrArg (l.takeWhile isWs ++ ·) (keyHeadSplit hk)
  · unfold rewriteLine
    rw [List.append_assoc]
    exact congrArg (l.takeWhile isWs ++ ·) (congrArg (pfxChars ++ ·) (keyHeadSplit hk))

/-- Computable form of the whole transform: all the pieces on the right are
structurally recursive, so concrete instances evaluate. -/
theorem fixEval (s : List Char) :
    fix_fqcn_content s = joinLines (passAll (splitLines s)) := by
  calc fix_fqcn_content s
      = joinLines (splitLines (fix_fqcn_content s)) := (joinLines_splitLines _).symm
    _ = joinLines (passAll (splitLines s)) := by rw [splitFix]

set_option maxRecDepth 10000

/-! ## The claims -/

/-- C1, counterexample.  The claim's pattern is `^\s*(module):\s*$`, with
`\s*` indentation: the line `debug:` matches it, yet the transform leaves
it unchanged (the program's pattern needs `\s+`, at least one whitespace
character, before the name). -/
theorem claim_C1_counterexample :
    ("debug".data ∈ builtin_modules) ∧
    specLineMatch "debug".data "debug:".data = true ∧
    fix_fqcn_content "debug:".data = "debug:".data ∧
    fix_fqcn_content "debug:".data ≠ "ansible.builtin.debug:".data := by
  refine ⟨by decide, by decide, ?_, ?_⟩ <;> rw [fixEval] <;> decide

/-- C1, amended.  A line of the form `\s+(module):\s*` (non-empty
indentation, trailing whitespace kept on the line) is rewritten to
`\s+ansible.builtin.(module):\s*` with indentation and trailing whitespace
byte-for-byte identical — provided no other line of the file begins, after
its indentation, with the same `module:` key (otherwise an earlier match's
trailing `\s*` group can swallow this line's indentation and the line is
skipped). -/
theorem claim_C1_amended (s : List Char) (i : Nat) (w mname r : List Char)
    (hm : mname ∈ builtin_modules)
    (hget : (splitLines s)[i]? = some (w ++ (mname ++ ':' :: r)))
    (hw : wsList w = true) (hwne : w ≠ []) (hr : wsList r = true)
    (huniq : ∀ (j : Nat) (lp : List Char), j ≠ i → (splitLines s)[j]? = some lp →
      keyAtWs mname lp = false) :
    (splitLines (fix_fqcn_content s))[i]? = some (w ++ (pfxChars ++ (mname ++ ':' :: r))) := by
  have hmws := builtinNoWs mname hm
  have hmne := builtinNe mname hm
  have hsplit := lineWsSplit (w := w) (r := r) hw hmws hmne
  have hkey : keyAtWs mname (w ++ (mname ++ ':' :: r)) = true := by
    unfold keyAtWs
    rw [hsplit.2]
    exact keyHeadSelf mname r
  have hrw : rewriteLine (w ++ (mname ++ ':' :: r))
      = w ++ (pfxChars ++ (mname ++ ':' :: r)) := by
    unfold rewriteLine
    rw [hsplit.1, hsplit.2, List.append_assoc]
  rw [splitFix]
  unfold passAll
  rw [← hrw]
  exact foldCompleteU builtin_modules builtinOk (splitLines s) i _ mname hm hget hkey huniq
    (Or.inl (by rw [hsplit.1]; exact hwne))

/-- C1, witness: the spec's own example, `      debug:` becomes
`      ansible.builtin.debug:`. -/
theorem claim_C1_witness :
    (splitLines (fix_fqcn_content "      debug:".data))[0]?
      = some ("      ".data ++ (pfxChars ++ ("debug".data ++ ':' :: []))) := by
  apply claim_C1_amended "      debug:".data 0 "      ".data "debug".data []
    (by decide) (by decide) (by decide) (by decide) (by decide)
  intro j lp hj hjp
  exfalso
  rcases List.getElem?_eq_some.mp hjp with ⟨hlt, -⟩
  have hlen : (splitLines "      debug:".data).length = 1 := by decide
  rw [hlen] at hlt
  omega

/-- C2, counterexample.  The transform is not idempotent: in
`  debug:\n  debug:\n` the first match's trailing `(\s*)` group consumes
the second line's indentation, so `re.sub` resumes past it and skips the
second line; a second application then rewrites it. -/
theorem claim_C2_counterexample :
    fix_fqcn_content "  debug:\n  debug:\n".data
      = "  ansible.builtin.debug:\n  debug:\n".data ∧
    fix_fqcn_content (fix_fqcn_content "  debug:\n  debug:\n".data)
      ≠ fix_fqcn_content "  debug:\n  debug:\n".data := by
  constructor
  · rw [fixEval]; decide
  · rw [fixEval, fixEval]; decide

/-- C2, amended.  Applying the transform twice yields the same result as
applying it once, provided that for each module name at most one line of
the input begins (after its leading whitespace) with that name followed by
a colon.  Without that proviso a matched line can shadow the next matching
line for the same module, which is then only rewritten by the second
application. -/
theorem claim_C2_amended (s : List Char)
    (U : ∀ m ∈ builtin_modules, ∀ (i j : Nat) (l l' : List Char),
      (splitLines s)[i]? = some l → (splitLines s)[j]? = some l' →
      keyAtWs m l = true → keyAtWs m l' = true → i = j) :
    fix_fqcn_content (fix_fqcn_content s) = fix_fqcn_content s :=
  fix_fqcn_idem_of_unique s U

/-- C2, witness: a single matched line is a fixpoint after one pass. -/
theorem claim_C2_witness :
    fix_fqcn_content (fix_fqcn_content "  debug:".data)
      = fix_fqcn_content "  debug:".data := by
  apply claim_C2_amended
  intro m _ i j l l' hi hj _ _
  have hlen : (splitLines "  debug:".data).length = 1 := by decide
  rcases List.getElem?_eq_some.mp hi with ⟨h1, -⟩
  rcases List.getElem?_eq_some.mp hj with ⟨h2, -⟩
  rw [hlen] at h1 h2
  omega

/-- No listed module keys the line, so the line matches no known-module
pattern. -/
theorem noKeyNoPattern {l : List Char} (h : ∀ m ∈ builtin_modules, keyAtWs m l = false) :
    ¬ ∃ m ∈ builtin_modules, ∃ w r, wsList w = true ∧ l = w ++ (m ++ ':' :: r) := by
  rintro ⟨m, hm, w, r, hw, rfl⟩
  have hk : keyAtWs m (w ++ (m ++ ':' :: r)) = true := by
    unfold keyAtWs
    rw [(lineWsSplit hw (builtinNoWs m hm) (builtinNe m hm)).2]
    exact keyHeadSelf m r
  rw [h m hm] at hk
  exact Bool.false_ne_true hk

/-- C3.  Every line that does not match any known-module pattern
(whitespace, then a module name from the list, then a colon) is
byte-for-byte unchanged by the transform. -/
theorem claim_C3 (s : List Char) (i : Nat) (l : List Char)
    (hget : (splitLines s)[i]? = some l)
    (hnm : ¬ ∃ m ∈ builtin_modules, ∃ w r, wsList w = true ∧ l = w ++ (m ++ ':' :: r)) :
    (splitLines (fix_fqcn_content s))[i]? = some l := by
  rw [splitFix]
  rcases foldSound builtin_modules builtinOk (splitLines s) i l hget with ⟨lout, hgo, hcase⟩
  rcases hcase with hc | ⟨m2, hm2, hk2, -⟩
  · rw [hc] at hgo
    exact hgo
  · exfalso
    rcases keyDecomp hk2 with ⟨w, r, hw, heq, -⟩
    exact hnm ⟨m2, hm2, w, r, hw, heq⟩

/-- C3, witness: a key that is not a module name is untouched. -/
theorem claim_C3_witness :
    (splitLines (fix_fqcn_content "  hello: x".data))[0]? = some "  hello: x".data := by
  apply claim_C3 _ 0 _ (by decide)
  exact noKeyNoPattern (by decide)

/-- The module names do not start with a dash. -/
theorem builtinDash : ∀ m ∈ builtin_modules, m ≠ [] ∧ m.headD ' ' ≠ '-' := by decide

/-- C4.  A line whose first non-whitespace character is a list-item dash is
left unchanged even when a known module key occurs after the dash: the
pattern allows only whitespace between the line start and the module name,
so it cannot match there. -/
theorem claim_C4 (s : List Char) (i : Nat) (w r mname : List Char)
    (hm : mname ∈ builtin_modules)
    (hget : (splitLines s)[i]? = some (w ++ '-' :: r))
    (hw : wsList w = true)
    (hsub : hasSub (mname ++ [':']) r = true) :
    (splitLines (fix_fqcn_content s))[i]? = some (w ++ '-' :: r) := by
  rw [splitFix]
  rcases foldSound builtin_modules builtinOk (splitLines s) i _ hget with ⟨lout, hgo, hcase⟩
  rcases hcase with hc | ⟨m2, hm2, hk2, -⟩
  · rw [hc] at hgo
    exact hgo
  · exfalso
    unfold keyAtWs at hk2
    have hdw : (w ++ '-' :: r).dropWhile isWs = '-' :: r := by
      rw [dwAppAll hw, List.dropWhile_cons]
      simp [show isWs '-' = false from by decide]
    rw [hdw, keyHeadConsFalse r (builtinDash m2 hm2).1 (builtinDash m2 hm2).2] at hk2
    exact Bool.false_ne_true hk2

/-- C4, witness: the spec's example line with a dash-prefixed `command:`. -/
theorem claim_C4_witness :
    (splitLines (fix_fqcn_content "        - command: \"ls -la\"".data))[0]?
      = some ("        ".data ++ '-' :: " command: \"ls -la\"".data) := by
  exact claim_C4 _ 0 "        ".data " command: \"ls -la\"".data "command".data
    (by decide) (by decide) (by decide) (by decide)

/-- C5, counterexample.  `open(file_path, 'w')` truncates the file before
anything is written; if the write itself then raises, the on-disk content
is not the original: the claim that the target file is left unchanged
whenever the write step fails is false. -/
theorem claim_C5_counterexample :
    (fix_fqcn_in_file "f.yml".data
        { fileContent := some "x: 1".data, readMsg := [],
          writeOutcome := WriteOutcome.failWrite "disk full".data }).fs = some [] ∧
    (some ([] : List Char) ≠ some "x: 1".data) ∧
    (fix_fqcn_in_file "f.yml".data
        { fileContent := some "x: 1".data, readMsg := [],
          writeOutcome := WriteOutcome.failWrite "disk full".data }).ok = false := by
  refine ⟨rfl, by decide, rfl⟩

/-- C5, amended.  If the read succeeds and opening the file for writing
fails, nothing is written and the on-disk content is unchanged; if the
write fails after a successful open, the file has already been truncated,
so the original content survives only in memory. -/
theorem claim_C5_amended (path c e : List Char) (sys : SysModel)
    (hc : sys.fileContent = some c) :
    (sys.writeOutcome = WriteOutcome.failOpen e →
      (fix_fqcn_in_file path sys).fs = some c ∧ (fix_fqcn_in_file path sys).ok = false) ∧
    (sys.writeOutcome = WriteOutcome.failWrite e →
      (fix_fqcn_in_file path sys).fs = some [] ∧ (fix_fqcn_in_file path sys).ok = false) := by
  constructor <;> intro hw <;> unfold fix_fqcn_in_file <;> rw [hc, hw] <;> exact ⟨rfl, rfl⟩

/-- C5, witness. -/
theorem claim_C5_witness :
    (fix_fqcn_in_file "g.yml".data
        { fileContent := some "y: 2".data, readMsg := [],
          writeOutcome := WriteOutcome.failOpen "perm".data }).fs = some "y: 2".data ∧
    (fix_fqcn_in_file "h.yml".data
        { fileContent := some "y: 2".data, readMsg := [],
          writeOutcome := WriteOutcome.failWrite "boom".data }).fs = some [] :=
  ⟨((claim_C5_amended "g.yml".data "y: 2".data "perm".data _ rfl).1 rfl).1,
   ((claim_C5_amended "h.yml".data "y: 2".data "boom".data _ rfl).2 rfl).1⟩

/-- C6.  The command line: wrong argument count prints the usage line and
exits 1; success prints a confirmation containing the file path and exits
0; any exception prints an error message containing the exception text and
exits 1. -/
theorem claim_C6 (argv : List (List Char)) (sys : SysModel) :
    (argv.length ≠ 1 →
      (main_fix argv sys).exitCode = 1 ∧ (main_fix argv sys).printed = [usageMsg]) ∧
    (∀ path c, argv = [path] → sys.fileContent = some c →
      sys.writeOutcome = WriteOutcome.ok →
      (main_fix argv sys).exitCode = 0 ∧
      (main_fix argv sys).printed = [okMsg path] ∧
      hasSub path (okMsg path) = true) ∧
    (∀ path, argv = [path] → sys.fileContent = none →
      (main_fix argv sys).exitCode = 1 ∧
      (main_fix argv sys).printed = [errMsg path sys.readMsg] ∧
      hasSub sys.readMsg (errMsg path sys.readMsg) = true) ∧
    (∀ path c e, argv = [path] → sys.fileContent = some c →
      (sys.writeOutcome = WriteOutcome.failOpen e ∨
        sys.writeOutcome = WriteOutcome.failWrite e) →
      (main_fix argv sys).exitCode = 1 ∧
      (main_fix argv sys).printed = [errMsg path e] ∧
      hasSub e (errMsg path e) = true) := by
  refine ⟨?_, ?_, ?_, ?_⟩
  · intro hne
    unfold main_fix
    rw [if_pos hne]
    exact ⟨rfl, rfl⟩
  · intro path c hargv hc hw
    subst hargv
    unfold main_fix fix_fqcn_in_file
    rw [hc, hw]
    refine ⟨rfl, rfl, ?_⟩
    unfold okMsg
    have := hasSubMid "✅ Fixed FQCN issues in ".data path []
    rw [List.append_nil] at this
    exact this
  · intro path hargv hn
    subst hargv
    unfold main_fix fix_fqcn_in_file
    rw [hn]
    refine ⟨rfl, rfl, ?_⟩
    unfold errMsg
    have h0 := hasSubMid (("❌ Error fixing ".data ++ path) ++ ": ".data) sys.readMsg []
    simp only [List.append_nil, List.append_assoc] at h0 ⊢
    exact h0
  · intro path c e hargv hc hw
    subst hargv
    unfold main_fix fix_fqcn_in_file
    have hmsg : hasSub e (errMsg path e) = true := by
      unfold errMsg
      have h0 := hasSubMid (("❌ Error fixing ".data ++ path) ++ ": ".data) e []
      simp only [List.append_nil, List.append_assoc] at h0 ⊢
      exact h0
    rcases hw with hw | hw <;> rw [hc, hw] <;> exact ⟨rfl, rfl, hmsg⟩

/-- C6, witness: one run of each kind. -/
theorem claim_C6_witness :
    (main_fix []
      { fileContent := none, readMsg := [],
        writeOutcome := WriteOutcome.ok }).exitCode = 1 ∧
    (main_fix ["a.yml".data]
      { fileContent := some "x: 1".data, readMsg := [],
        writeOutcome := WriteOutcome.ok }).exitCode = 0 ∧
    (main_fix ["a.yml".data]
      { fileContent := some "x: 1".data, readMsg := [],
        writeOutcome := WriteOutcome.failWrite "boom".data }).exitCode = 1 ∧
    (main_fix ["a.yml".data]
      { fileContent := none, readMsg := "no file".data,
        writeOutcome := WriteOutcome.ok }).exitCode = 1 :=
  ⟨((claim_C6 [] _).1 (by decide)).1,
   ((claim_C6 ["a.yml".data] _).2.1 "a.yml".data "x: 1".data rfl rfl rfl).1,
   ((claim_C6 ["a.yml".data] _).2.2.2 "a.yml".data "x: 1".data "boom".data rfl rfl
     (Or.inr rfl)).1,
   ((claim_C6 ["a.yml".data] _).2.2.1 "a.yml".data rfl rfl).1⟩

/-- C8.  When no file exists at the given path, the read raises before
anything else happens: the process prints an error, exits 1, and no file
is created. -/
theorem claim_C8 (path : List Char) (sys : SysModel) (hn : sys.fileContent = none) :
    (main_fix [path] sys).exitCode = 1 ∧
    (main_fix [path] sys).fs = none ∧
    (main_fix [path] sys).printed = [errMsg path sys.readMsg] := by
  unfold main_fix fix_fqcn_in_file
  rw [hn]
  exact ⟨rfl, rfl, rfl⟩

/-- C8, witness. -/
theorem claim_C8_witness :
    (main_fix ["missing.yml".data]
      { fileContent := none, readMsg := "enoent".data,
        writeOutcome := WriteOutcome.ok }).exitCode = 1 ∧
    (main_fix ["missing.yml".data]
      { fileContent := none, readMsg := "enoent".data,
        writeOutcome := WriteOutcome.ok }).fs = none := by
  rcases claim_C8 "missing.yml".data
      { fileContent := none, readMsg := "enoent".data,
        writeOutcome := WriteOutcome.ok } rfl with ⟨h1, h2, -⟩
  exact ⟨h1, h2⟩

/-- C7, counterexample.  The claim quantifies over every line of shape
whitespace · module · colon · further text.  In
`  command:\n  command: x` the second line has exactly that shape, yet it
is left unchanged: the first line's trailing `(\s*)` group consumes the
newline and the second line's indentation, and `re.sub` resumes mid-line
where the `^` anchor cannot match. -/
theorem claim_C7_counterexample :
    (splitLines "  command:\n  command: x".data)[1]? = some "  command: x".data ∧
    fix_fqcn_content "  command:\n  command: x".data
      = "  ansible.builtin.command:\n  command: x".data := by
  refine ⟨by decide, ?_⟩
  rw [fixEval]
  decide

/-- C7, amended.  A line made of nonempty whitespace, a known module name,
a colon and further (non-whitespace) text is rewritten by inserting
`ansible.builtin.` before the module name, with the trailing content
preserved exactly — provided no other line of the input is keyed by the
same module name (otherwise an earlier match can swallow this line's
indentation and shadow it). -/
theorem claim_C7_amended (s : List Char) (i : Nat) (w mname r : List Char)
    (hm : mname ∈ builtin_modules)
    (hget : (splitLines s)[i]? = some (w ++ (mname ++ ':' :: r)))
    (hw : wsList w = true) (hwne : w ≠ []) (hr : wsList r = false)
    (huniq : ∀ (j : Nat) (lp : List Char), j ≠ i → (splitLines s)[j]? = some lp →
      keyAtWs mname lp = false) :
    (splitLines (fix_fqcn_content s))[i]? = some (w ++ (pfxChars ++ (mname ++ ':' :: r))) := by
  have hmws := builtinNoWs mname hm
  have hmne := builtinNe mname hm
  have hsplit := lineWsSplit (w := w) (r := r) hw hmws hmne
  have hkey : keyAtWs mname (w ++ (mname ++ ':' :: r)) = true := by
    unfold keyAtWs
    rw [hsplit.2]
    exact keyHeadSelf mname r
  have hrw : rewriteLine (w ++ (mname ++ ':' :: r))
      = w ++ (pfxChars ++ (mname ++ ':' :: r)) := by
    unfold rewriteLine
    rw [hsplit.1, hsplit.2, List.append_assoc]
  rw [splitFix]
  unfold passAll
  rw [← hrw]
  exact foldCompleteU builtin_modules builtinOk (splitLines s) i _ mname hm hget hkey huniq
    (Or.inl (by rw [hsplit.1]; exact hwne))

/-- C7, witness: the spec's example shape, `  command: "ls"`, keeps its
trailing ` "ls"` and only gains the prefix. -/
theorem claim_C7_witness :
    (splitLines (fix_fqcn_content "  command: \"ls\"".data))[0]?
      = some ("  ".data ++ (pfxChars ++ ("command".data ++ ':' :: " \"ls\"".data))) := by
  apply claim_C7_amended "  command: \"ls\"".data 0 "  ".data "command".data " \"ls\"".data
    (by decide) (by decide) (by decide) (by decide) (by decide)
  intro j lp hj hjp
  exfalso
  rcases List.getElem?_eq_some.mp hjp with ⟨hlt, -⟩
  have hlen : (splitLines "  command: \"ls\"".data).length = 1 := by decide
  rw [hlen] at hlt
  omega

/-- C9, counterexample.  In `x \ndebug:` the characters immediately
preceding the zero-indent line `debug:` — the space ending the previous
line and the newline itself — are both whitespace, yet the line is not
rewritten: the `\s+` group must start at a line start, so it only reaches
across the newline when the whole previous line is whitespace. -/
theorem claim_C9_counterexample :
    isWs ' ' = true ∧ isWs '\n' = true ∧
    (splitLines "x \ndebug:".data)[1]? = some ("debug".data ++ ':' :: []) ∧
    fix_fqcn_content "x \ndebug:".data = "x \ndebug:".data := by
  refine ⟨by decide, by decide, by decide, ?_⟩
  rw [fixEval]
  decide

/-- C9, amended.  A line starting (with zero indentation) with a known
module name and a colon is never rewritten when it is the first line or
its predecessor line contains a non-whitespace character; it is rewritten
when its predecessor line is entirely whitespace, provided no other line
of the input is keyed by the same module name. -/
theorem claim_C9_amended (s : List Char) (i : Nat) (mname r : List Char)
    (hm : mname ∈ builtin_modules)
    (hget : (splitLines s)[i]? = some (mname ++ ':' :: r)) :
    ((∀ (j : Nat) (lp : List Char), i = j + 1 → (splitLines s)[j]? = some lp →
        wsList lp = false) →
      (splitLines (fix_fqcn_content s))[i]? = some (mname ++ ':' :: r)) ∧
    ((∃ (j : Nat) (lp : List Char), i = j + 1 ∧ (splitLines s)[j]? = some lp ∧
        wsList lp = true) →
      (∀ (j : Nat) (lp : List Char), j ≠ i → (splitLines s)[j]? = some lp →
        keyAtWs mname lp = false) →
      (splitLines (fix_fqcn_content s))[i]? = some (pfxChars ++ (mname ++ ':' :: r))) := by
  have hmws := builtinNoWs mname hm
  have hmne := builtinNe mname hm
  have hsplit := lineWsSplit (w := ([] : List Char)) (r := r) rfl hmws hmne
  rw [List.nil_append] at hsplit
  have hkey : keyAtWs mname (mname ++ ':' :: r) = true := by
    unfold keyAtWs
    rw [hsplit.2]
    exact keyHeadSelf mname r
  constructor
  · intro hpred
    rw [splitFix]
    unfold passAll
    exact foldNoFire builtin_modules builtinOk (splitLines s) i _ hget hsplit.1 hpred
  · intro hblank huniq
    have hrw : rewriteLine (mname ++ ':' :: r) = pfxChars ++ (mname ++ ':' :: r) := by
      unfold rewriteLine
      rw [hsplit.1, hsplit.2, List.nil_append]
    rw [splitFix]
    unfold passAll
    rw [← hrw]
    exact foldCompleteU builtin_modules builtinOk (splitLines s) i _ mname hm hget hkey huniq
      (Or.inr hblank)

/-- C9, witness: in `x\ndebug:` the zero-indent `debug:` line stays as it
is; in `x\n\ndebug:`, where a blank line precedes it, it is rewritten. -/
theorem claim_C9_witness :
    (splitLines (fix_fqcn_content "x\ndebug:".data))[1]?
      = some ("debug".data ++ ':' :: []) ∧
    (splitLines (fix_fqcn_content "x\n\ndebug:".data))[2]?
      = some (pfxChars ++ ("debug".data ++ ':' :: [])) := by
  constructor
  · apply (claim_C9_amended "x\ndebug:".data 1 "debug".data [] (by decide) (by decide)).1
    intro j lp hj hjp
    have hj0 : j = 0 := by omega
    subst hj0
    have h0 : (splitLines "x\ndebug:".data)[0]? = some ("x".data) := by decide
    rw [h0] at hjp
    rw [← Option.some_inj.mp hjp]
    decide
  · apply (claim_C9_amended "x\n\ndebug:".data 2 "debug".data [] (by decide) (by decide)).2
    · exact ⟨1, [], rfl, by decide, rfl⟩
    · intro j lp hj hjp
      rcases List.getElem?_eq_some.mp hjp with ⟨hlt, -⟩
      have hlen : (splitLines "x\n\ndebug:".data).length = 3 := by decide
      rw [hlen] at hlt
      interval_cases j
      · have h0 : (splitLines "x\n\ndebug:".data)[0]? = some ("x".data) := by decide
        rw [h0] at hjp
        rw [← Option.some_inj.mp hjp]
        decide
      · have h1 : (splitLines "x\n\ndebug:".data)[1]? = some ([] : List Char) := by decide
        rw [h1] at hjp
        rw [← Option.some_inj.mp hjp]
        decide
      · exact absurd rfl hj

/-- C10.  The transform preserves the number of lines, and each output
line is either byte-for-byte the corresponding input line, or that input
line with the exact string `ansible.builtin.` inserted immediately before
a known module name followed by a colon located just after the line's
leading whitespace. -/
theorem claim_C10 (s : List Char) (i : Nat) (l : List Char)
    (hget : (splitLines s)[i]? = some l) :
    (splitLines (fix_fqcn_content s)).length = (splitLines s).length ∧
    ∃ lout, (splitLines (fix_fqcn_content s))[i]? = some lout ∧
      (lout = l ∨ ∃ m ∈ builtin_modules, ∃ w r, wsList w = true ∧
        l = w ++ (m ++ ':' :: r) ∧ lout = w ++ (pfxChars ++ (m ++ ':' :: r))) := by
  rw [splitFix]
  unfold passAll
  constructor
  · exact foldLen builtin_modules (splitLines s)
  · rcases foldSound builtin_modules builtinOk (splitLines s) i l hget with
      ⟨lout, hgo, hcase⟩
    refine ⟨lout, hgo, ?_⟩
    rcases hcase with hc | ⟨m, hm, hkm, hrm⟩
    · exact Or.inl hc
    · rcases keyDecomp hkm with ⟨w, r, hw, hl, hrw⟩
      exact Or.inr ⟨m, hm, w, r, hw, hl, hrm.trans hrw⟩

/-- C10, witness. -/
theorem claim_C10_witness :
    (splitLines (fix_fqcn_content "  copy: x\nother".data)).length
      = (splitLines "  copy: x\nother".data).length ∧
    ∃ lout, (splitLines (fix_fqcn_content "  copy: x\nother".data))[0]? = some lout ∧
      (lout = "  copy: x".data ∨ ∃ m ∈ builtin_modules, ∃ w r, wsList w = true ∧
        "  copy: x".data = w ++ (m ++ ':' :: r) ∧
        lout = w ++ (pfxChars ++ (m ++ ':' :: r))) :=
  claim_C10 "  copy: x\nother".data 0 "  copy: x".data (by decide)
